import Mathlib

/-!
# go-tiant: the redis access layer (`redis/hash.go`, `redis/lock.go`, `redis/zset.go`)
and the application errors (`errors/error.go`)

A shallow embedding of the request-building and reply-decoding code.

* Go `string` and `[]byte` are both `String` (the conversions between them copy
  the bytes unchanged).
* A Go `nil` slice or map is the empty list: `len`, `range`, `append` and lookups
  cannot tell them apart.
* A Go `error` is `Option GoError`, `none` being `nil`.
* The command executor `(*Redis).Do` is a deterministic transition function on an
  arbitrary state; every call is recorded, with its answer, in a log.
* A run-time panic is an explicit outcome.
-/

namespace GoTiant

/-! ## Values exchanged with the executor -/

/-- Go `[]byte`. -/
abbrev Bytes := String

/-- The two sentinel causes of `strconv.NumError`. -/
inductive StrconvErr
  | ErrSyntax
  | ErrRange
deriving DecidableEq, Repr

/-- Go `error` values that occur in the package. `ErrNil` is `redis.ErrNil`, the
absent-value sentinel; `redisError` is a `redis.Error` (an error reply of the
server); `errorString` is a value of `errors.New` or `fmt.Errorf`, also any
transport error; `numError` is a `*strconv.NumError`. -/
inductive GoError
  | ErrNil
  | redisError (msg : String)
  | errorString (msg : String)
  | numError (func num : String) (err : StrconvErr)
deriving DecidableEq, Repr

/-- A command argument (`interface{}` passed to `Do`): a `string`, an `int`
(also `int64`) or a `uint64`. -/
inductive Arg
  | str (s : String)
  | int (i : Int)
  | uint64 (n : Nat)
deriving DecidableEq, Repr

/-- A reply of the executor (`interface{}` returned by `Do`), as redigo types it:
`nil`, `int64`, `[]byte` (bulk string), `string` (status line), `[]interface{}`
and `redis.Error`. -/
inductive Reply
  | nil
  | int (n : Int)
  | bulk (b : Bytes)
  | status (s : String)
  | array (xs : List Reply)
  | error (msg : String)
deriving Repr

/-- The `%T` name of a reply's dynamic type. -/
def Reply.goType : Reply → String
  | .nil => "<nil>"
  | .int _ => "int64"
  | .bulk _ => "[]uint8"
  | .status _ => "string"
  | .array _ => "[]interface {}"
  | .error _ => "redis.Error"

/-- The result of a Go function that may panic. -/
inductive Outcome (α : Type)
  | ret (a : α)
  | panic (msg : String)
deriving Repr

/-- One round trip: the command, its arguments, and what `Do` returned. -/
structure Exchange where
  cmd : String
  args : List Arg
  reply : Reply
  err : Option GoError
deriving Repr

/-- The receiver `*Redis`: its `Do` method, a transition on the state `σ` of the
connection and the server behind it. -/
structure Redis (σ : Type) where
  Do : σ → String → List Arg → (Reply × Option GoError) × σ

/-- The state of the executor together with the log of the round trips made so
far, oldest first. -/
structure Conn (σ : Type) where
  state : σ
  log : List Exchange

/-- A call `r.Do(cmd, args...)`: one transition, appended to the log. -/
def Redis.exec {σ : Type} (r : Redis σ) (c : Conn σ) (cmd : String) (args : List Arg) :
    (Reply × Option GoError) × Conn σ :=
  let out := r.Do c.state cmd args
  (out.1, ⟨out.2, c.log ++ [⟨cmd, args, out.1.1, out.1.2⟩]⟩)

/-! ## redigo reply helpers (`github.com/gomodule/redigo/redis`, `reply.go`) -/

/-- `redis.Values`. -/
def redis.Values (reply : Reply) (err : Option GoError) : List Reply × Option GoError :=
  match err with
  | some e => ([], some e)
  | none =>
    match reply with
    | .array xs => (xs, none)
    | .nil => ([], some .ErrNil)
    | .error m => ([], some (.redisError m))
    | other => ([], some (.errorString
        ("redigo: unexpected type for Values, got type " ++ other.goType)))

/-- The element loop of `redis.ByteSlices`: a `nil` element stays `nil`, a
`[]byte` is stored, anything else is an error. -/
def byteSlicesElems : List Reply → List (Option Bytes) × Option GoError
  | [] => ([], none)
  | x :: rest =>
    match x with
    | .nil =>
      match byteSlicesElems rest with
      | (ps, none) => (none :: ps, none)
      | (_, some e) => ([], some e)
    | .bulk b =>
      match byteSlicesElems rest with
      | (ps, none) => (some b :: ps, none)
      | (_, some e) => ([], some e)
    | other => ([], some (.errorString
        ("redigo: unexpected element type for ByteSlices, got type " ++ other.goType)))

/-- `redis.ByteSlices`. The slice returned next to a non-nil error is not
modelled (it is `nil` here); no caller in this package reads it. -/
def redis.ByteSlices (reply : Reply) (err : Option GoError) : List (Option Bytes) × Option GoError :=
  match err with
  | some e => ([], some e)
  | none =>
    match reply with
    | .array xs => byteSlicesElems xs
    | .nil => ([], some .ErrNil)
    | .error m => ([], some (.redisError m))
    | other => ([], some (.errorString
        ("redigo: unexpected type for ByteSlices, got type " ++ other.goType)))

/-! ## `HMGet` (`redis/hash.go`) -/

/-- Modelled from the spec: the constant `_CHUNK_SIZE` is declared outside the
sources at hand; the spec fixes the chunk size at `C = 32`. -/
def _CHUNK_SIZE : Nat := 32

/-- The value of the conversion `float64(n)` of a non-negative `int`: `n` itself
below `2^53`, otherwise `n` rounded to 53 significant bits, ties to even. The
result is always an integer, so it is kept as a `Nat`. -/
def float64OfInt (n : Nat) : Nat :=
  if n < 2 ^ 53 then n
  else
    let sh := Nat.log2 n - 52
    let q := n / 2 ^ sh
    let r := n % 2 ^ sh
    let half := 2 ^ (sh - 1)
    let q1 := if half < r ∨ (r = half ∧ q % 2 = 1) then q + 1 else q
    q1 * 2 ^ sh

/-- `int(math.Ceil(float64(n) / float64(_CHUNK_SIZE)))`. Dividing a float by the
power of two `32` is exact, and so is `math.Ceil`, so the only rounding is in
`float64(n)`. -/
def pageNum (n : Nat) : Nat :=
  (float64OfInt n + (_CHUNK_SIZE - 1)) / _CHUNK_SIZE

/-- The slice expression `xs[lo:hi]`; `none` is the run-time panic "slice bounds
out of range". The capacity of `xs` is taken to be its length. -/
def goSlice {α : Type} (xs : List α) (lo hi : Nat) : Option (List α) :=
  if lo ≤ hi ∧ hi ≤ xs.length then some ((xs.drop lo).take (hi - lo)) else none

/-- The loop `for i := 0; i < pageNum; i++` of `HMGet`, entered at `i` with
`k = pageNum - i` iterations left and `res` accumulated so far. -/
def Redis.HMGet.loop {σ : Type} (r : Redis σ) (key : String) (fields : List String) (pn : Nat) :
    Nat → Nat → List (Option Bytes) → Conn σ →
      Outcome (List (Option Bytes) × Option GoError) × Conn σ
  | 0, _, res, c => (.ret (res, none), c)
  | k + 1, i, res, c =>
    let hi := if i = pn - 1 then fields.length else (i + 1) * _CHUNK_SIZE
    match goSlice fields (i * _CHUNK_SIZE) hi with
    | none => (.panic "slice bounds out of range", c)
    | some chunk =>
      let fieldList := chunk.map Arg.str
      let out := r.exec c "HMGET" (Arg.str key :: fieldList)
      match redis.ByteSlices out.1.1 out.1.2 with
      | (_, some e) => (.ret ([], some e), out.2)
      | (cacheRes, none) => Redis.HMGet.loop r key fields pn k (i + 1) (res ++ cacheRes) out.2

/-- `(*Redis).HMGet`. -/
def Redis.HMGet {σ : Type} (r : Redis σ) (key : String) (fields : List String) (c : Conn σ) :
    Outcome (List (Option Bytes) × Option GoError) × Conn σ :=
  Redis.HMGet.loop r key fields (pageNum fields.length) (pageNum fields.length) 0 [] c

/-! ## `strconv` -/

/-- The digit loop of `strconv.ParseUint(s, 10, 64)` with `n` accumulated so far:
`cutoff = maxUint64/10 + 1`, `maxVal = 1<<64 - 1`, sums taken modulo `2^64`. A
letter is a digit of value at least ten, which base ten rejects as any other
character: a syntax error. The loop returns at the first range error without
reading on. -/
def strconv.parseUintLoop : List Char → Nat → Nat × Option StrconvErr
  | [], n => (n, none)
  | c :: cs, n =>
    if c.isDigit then
      let d := c.toNat - 48
      if n ≥ 1844674407370955162 then (2 ^ 64 - 1, some .ErrRange)
      else
        let n10 := n * 10 % 2 ^ 64
        let n1 := (n10 + d) % 2 ^ 64
        if n1 < n10 ∨ n1 > 2 ^ 64 - 1 then (2 ^ 64 - 1, some .ErrRange)
        else strconv.parseUintLoop cs n1
    else (0, some .ErrSyntax)

/-- `strconv.ParseUint(s, 10, 64)` on the characters of `s`, the cause of the
error alone. -/
def strconv.parseUint (s : List Char) : Nat × Option StrconvErr :=
  match s with
  | [] => (0, some .ErrSyntax)
  | _ => strconv.parseUintLoop s 0

/-- `strconv.ParseUint(s, 10, 64)`. -/
def strconv.ParseUint (s : String) : Nat × Option GoError :=
  match strconv.parseUint s.toList with
  | (n, none) => (n, none)
  | (n, some e) => (n, some (.numError "ParseUint" s e))

/-- `strconv.ParseInt(s, 10, 64)`: an optional sign, then `ParseUint`, then the
range check against `cutoff = 1 << 63`. -/
def strconv.ParseInt (s : String) : Int × Option GoError :=
  match s.toList with
  | [] => (0, some (.numError "ParseInt" s .ErrSyntax))
  | c :: rest =>
    let neg := decide (c = '-')
    let body := if c = '+' ∨ c = '-' then rest else c :: rest
    match strconv.parseUint body with
    | (_, some .ErrSyntax) => (0, some (.numError "ParseInt" s .ErrSyntax))
    | (un, _) =>
      if !neg ∧ un ≥ 2 ^ 63 then (2 ^ 63 - 1, some (.numError "ParseInt" s .ErrRange))
      else if neg ∧ un > 2 ^ 63 then (-(2 ^ 63), some (.numError "ParseInt" s .ErrRange))
      else (if neg then -(un : Int) else (un : Int), none)

/-- The conversion `uint64(i)` of an `int64`. -/
def uint64OfInt (i : Int) : Nat := (i % 2 ^ 64).toNat

/-! ## `HScan` and `parseScanResults` (`redis/hash.go`) -/

/-- Go `map[string][]byte`, as an association list without repeated keys. -/
abbrev GoMap := List (String × Bytes)

/-- The assignment `m[k] = v`. -/
def GoMap.set (m : GoMap) (k : String) (v : Bytes) : GoMap :=
  (k, v) :: m.filter (fun p => p.1 ≠ k)

/-- One argument of the variadic `packArgs`: a scalar or a `[]string`. -/
inductive PackItem
  | scalar (a : Arg)
  | strings (xs : List String)

/-- Modelled from the spec: `packArgs` is declared outside the sources at hand.
The wire forms `HSCAN key cursor ...`, `ZREM key member...` and
`ZUNIONSTORE dest numkeys key...` fix what it does on the arguments it receives
here: a scalar is appended, a slice contributes its elements in order. -/
def packArgs (items : List PackItem) : List Arg :=
  items.flatMap fun
    | .scalar a => [a]
    | .strings xs => xs.map Arg.str

/-- The loop `for i := 0; i < len(scanData); i = i + 2` of `parseScanResults` on
the part `scanData[i:]` still to read. Both type assertions `.([]byte)` panic on
another dynamic type, and `scanData[i+1]` panics when `i` is the last index. -/
def parseScanResults.loop : List Reply → GoMap → Outcome GoMap
  | [], result => .ret result
  | [x], _ =>
    match x with
    | .bulk _ => .panic "index out of range"
    | other => .panic ("interface conversion: interface {} is " ++ other.goType ++ ", not []uint8")
  | x :: y :: rest, result =>
    match x with
    | .bulk key =>
      match y with
      | .bulk v => parseScanResults.loop rest (result.set key v)
      | other => .panic ("interface conversion: interface {} is " ++ other.goType ++ ", not []uint8")
    | other => .panic ("interface conversion: interface {} is " ++ other.goType ++ ", not []uint8")

/-- `parseScanResults`. -/
def parseScanResults (results : List Reply) : Outcome (Nat × GoMap × Option GoError) :=
  match results with
  | [r0, r1] =>
    match r0 with
    | .bulk b =>
      match strconv.ParseInt b with
      | (_, some e) => .ret (0, [], some e)
      | (cursorIndex, none) =>
        match r1 with
        | .array scanData =>
          match parseScanResults.loop scanData [] with
          | .ret result => .ret (uint64OfInt cursorIndex, result, none)
          | .panic msg => .panic msg
        | other => .panic ("interface conversion: interface {} is " ++ other.goType
            ++ ", not []interface {}")
    | other => .panic ("interface conversion: interface {} is " ++ other.goType ++ ", not []uint8")
  | _ => .ret (0, [], some (.errorString "hscan err length"))

/-- `(*Redis).HScan`. -/
def Redis.HScan {σ : Type} (r : Redis σ) (key : String) (cursor : Nat) (pattern : String)
    (count : Int) (c : Conn σ) : Outcome (Nat × GoMap × Option GoError) × Conn σ :=
  let args := packArgs [.scalar (.str key), .scalar (.uint64 cursor)]
  let args := if pattern ≠ "" then args ++ [.str "MATCH", .str pattern] else args
  let args := if count > 0 then args ++ [.str "COUNT", .int count] else args
  let out := r.exec c "HSCAN" args
  match redis.Values out.1.1 out.1.2 with
  | (_, some .ErrNil) => (.ret (0, [], none), out.2)
  | (_, some e) => (.ret (0, [], some e), out.2)
  | (values, none) => (parseScanResults values, out.2)

/-! ## The lock (`redis/lock.go`) -/

/-- `redis.String`; primed, since the plain name would hide Lean's own `String`
inside the namespace. -/
def redis.String' (reply : Reply) (err : Option GoError) : String × Option GoError :=
  match err with
  | some e => ("", some e)
  | none =>
    match reply with
    | .bulk b => (b, none)
    | .status s => (s, none)
    | .nil => ("", some .ErrNil)
    | .error m => ("", some (.redisError m))
    | other => ("", some (.errorString
        ("redigo: unexpected type for String, got type " ++ other.goType)))

/-- The constant `EXSECONDS`. -/
def EXSECONDS : String := "EX"

/-- The constant `PXMILLISSECONDS`. -/
def PXMILLISSECONDS : String := "PX"

/-- The constant `NOTEXISTS`. -/
def NOTEXISTS : String := "NX"

/-- `(*Redis).tryLock`. The coercion `parseToString` of the value to its wire
string is declared outside the sources at hand and is a parameter. -/
def Redis.tryLock {σ α : Type} (parseToString : α → String) (r : Redis σ) (key : String)
    (value : α) (expire : Nat) (exType : String) (c : Conn σ) :
    (Bool × Option GoError) × Conn σ :=
  let str := parseToString value
  if str = "" then ((false, some (.errorString "value is empty")), c)
  else
    let out := r.exec c "SET" [.str key, .str str, .str exType, .uint64 expire, .str NOTEXISTS]
    match (redis.String' out.1.1 out.1.2).2 with
    | some .ErrNil => ((false, none), out.2)
    | some e => ((false, some e), out.2)
    | none => ((true, none), out.2)

/-- `(*Redis).SetNxByEX`. -/
def Redis.SetNxByEX {σ α : Type} (parseToString : α → String) (r : Redis σ) (key : String)
    (value : α) (expire : Nat) (c : Conn σ) : (Bool × Option GoError) × Conn σ :=
  r.tryLock parseToString key value expire EXSECONDS c

/-- `(*Redis).SetNxByPX`. -/
def Redis.SetNxByPX {σ α : Type} (parseToString : α → String) (r : Redis σ) (key : String)
    (value : α) (expire : Nat) (c : Conn σ) : (Bool × Option GoError) × Conn σ :=
  r.tryLock parseToString key value expire PXMILLISSECONDS c

/-! ## Sorted sets (`redis/zset.go`) -/

/-- `redis.Int64`. -/
def redis.Int64 (reply : Reply) (err : Option GoError) : Int × Option GoError :=
  match err with
  | some e => (0, some e)
  | none =>
    match reply with
    | .int n => (n, none)
    | .bulk b => strconv.ParseInt b
    | .nil => (0, some .ErrNil)
    | .error m => (0, some (.redisError m))
    | other => (0, some (.errorString
        ("redigo: unexpected type for Int64, got type " ++ other.goType)))

/-- `(*Redis).ZRangeByScore`. -/
def Redis.ZRangeByScore {σ : Type} (r : Redis σ) (key min max : String)
    (withscores limit : Bool) (offset count : Int) (c : Conn σ) :
    (List (Option Bytes) × Option GoError) × Conn σ :=
  let args := [Arg.str key, Arg.str min, Arg.str max]
  let args := if withscores then args ++ [.str "WITHSCORES"] else args
  let args := if limit then args ++ [.str "LIMIT", .int offset, .int count] else args
  let out := r.exec c "ZRANGEBYSCORE" args
  match redis.ByteSlices out.1.1 out.1.2 with
  | (_, some .ErrNil) => (([], none), out.2)
  | (res, err) => ((res, err), out.2)

/-- `(*Redis).ZRevRangeByScore`. -/
def Redis.ZRevRangeByScore {σ : Type} (r : Redis σ) (key min max : String)
    (withscores limit : Bool) (offset count : Int) (c : Conn σ) :
    (List (Option Bytes) × Option GoError) × Conn σ :=
  let args := [Arg.str key, Arg.str max, Arg.str min]
  let args := if withscores then args ++ [.str "WITHSCORES"] else args
  let args := if limit then args ++ [.str "LIMIT", .int offset, .int count] else args
  let out := r.exec c "ZREVRANGEBYSCORE" args
  match redis.ByteSlices out.1.1 out.1.2 with
  | (_, some .ErrNil) => (([], none), out.2)
  | (res, err) => ((res, err), out.2)

/-- The loop `for _, w := range weights { args = append(args, w) }` of
`ZUnionStore` and `ZInterStore`. -/
def appendWeights (args : List Arg) : List Int → List Arg
  | [] => args
  | w :: ws => appendWeights (args ++ [.int w]) ws

/-- `(*Redis).ZUnionStore`. A `nil` weight list is the empty list, which the
guard `weights != nil && len(weights) > 0` treats alike. -/
def Redis.ZUnionStore {σ : Type} (r : Redis σ) (destination : String) (keys : List String)
    (weights : List Int) (aggregate : String) (c : Conn σ) : (Int × Option GoError) × Conn σ :=
  let args := packArgs [.scalar (.str destination), .scalar (.int keys.length), .strings keys]
  let args :=
    if weights.length > 0 then appendWeights (args ++ [.str "WEIGHTS"]) weights else args
  let args := if aggregate ≠ "" then args ++ [.str "AGGREGATE", .str aggregate] else args
  let out := r.exec c "ZUNIONSTORE" args
  match redis.Int64 out.1.1 out.1.2 with
  | (_, some .ErrNil) => ((0, none), out.2)
  | (res, err) => ((res, err), out.2)

/-- `(*Redis).ZInterStore`. -/
def Redis.ZInterStore {σ : Type} (r : Redis σ) (destination : String) (keys : List String)
    (weights : List Int) (aggregate : String) (c : Conn σ) : (Int × Option GoError) × Conn σ :=
  let args := packArgs [.scalar (.str destination), .scalar (.int keys.length), .strings keys]
  let args :=
    if weights.length > 0 then appendWeights (args ++ [.str "WEIGHTS"]) weights else args
  let args := if aggregate ≠ "" then args ++ [.str "AGGREGATE", .str aggregate] else args
  let out := r.exec c "ZINTERSTORE" args
  match redis.Int64 out.1.1 out.1.2 with
  | (_, some .ErrNil) => ((0, none), out.2)
  | (res, err) => ((res, err), out.2)

/-! ### `ZScan` and `redis.Scan` (redigo `scan.go`) -/

/-- The error `redis.Scan` returns when an element cannot be stored in its
destination; the text after the position is abridged. -/
def cannotAssign (dest : Nat) (src : Reply) : GoError :=
  .errorString ("redigo.Scan: cannot assign to dest " ++ toString dest ++ ": cannot convert from "
    ++ src.goType)

/-- `convertAssign(&cursor, src)` for the destination `cursor uint64`: `nil` is
ignored, a bulk or status string goes through `strconv.ParseUint`, a
non-negative integer is stored; the value is the cursor afterwards. -/
def redis.Scan.cursor (cursor : Nat) (src : Reply) : Nat × Option GoError :=
  match src with
  | .nil => (cursor, none)
  | .bulk b =>
    match strconv.ParseUint b with
    | (n, none) => (n, none)
    | (_, some _) => (cursor, some (cannotAssign 0 src))
  | .status s =>
    match strconv.ParseUint s with
    | (n, none) => (n, none)
    | (_, some _) => (cursor, some (cannotAssign 0 src))
  | .int n => if n < 0 then (cursor, some (cannotAssign 0 src)) else (n.toNat, none)
  | other => (cursor, some (cannotAssign 0 other))

/-- The element loop of `convertAssignArray` for the destination `[]string`:
bulk strings, status strings and error replies are stored as strings. -/
def redis.Scan.strings : List Reply → List String × Option GoError
  | [] => ([], none)
  | x :: rest =>
    let tail := redis.Scan.strings rest
    match x, tail with
    | .bulk b, (xs, none) => (b :: xs, none)
    | .status s, (xs, none) => (s :: xs, none)
    | .error m, (xs, none) => (m :: xs, none)
    | .bulk _, (_, some e) => ([], some e)
    | .status _, (_, some e) => ([], some e)
    | .error _, (_, some e) => ([], some e)
    | other, _ => ([], some (cannotAssign 1 other))

/-- `convertAssign(&items, src)` for the destination `items []string`. -/
def redis.Scan.items (src : Reply) : List String × Option GoError :=
  match src with
  | .nil => ([], none)
  | .array xs => redis.Scan.strings xs
  | other => ([], some (cannotAssign 1 other))

/-- `redis.Scan(values, &cursor, &items)`: the cursor and the items afterwards,
and the error. -/
def redis.Scan (src : List Reply) (cursor : Nat) : Nat × List String × Option GoError :=
  match src with
  | s0 :: s1 :: _ =>
    match redis.Scan.cursor cursor s0 with
    | (cur, some e) => (cur, [], some e)
    | (cur, none) =>
      match redis.Scan.items s1 with
      | (items, err) => (cur, items, err)
  | _ => (cursor, [], some (.errorString "redigo.Scan: array short"))

/-- `(*Redis).ZScan`. -/
def Redis.ZScan {σ : Type} (r : Redis σ) (key : String) (cursor : Nat) (pattern : String)
    (count : Int) (c : Conn σ) : (Nat × List String × Option GoError) × Conn σ :=
  let args := packArgs [.scalar (.str key), .scalar (.uint64 cursor)]
  let args := if pattern ≠ "" then args ++ [.str "MATCH", .str pattern] else args
  let args := if count > 0 then args ++ [.str "COUNT", .int count] else args
  let out := r.exec c "ZSCAN" args
  match redis.Values out.1.1 out.1.2 with
  | (_, some e) => ((0, [], some e), out.2)
  | (values, none) =>
    match redis.Scan values cursor with
    | (_, _, some e) => ((0, [], some e), out.2)
    | (cur, items, none) => ((cur, items, none), out.2)

/-! ### Rank and removal (`redis/zset.go`) -/

/-- `(*Redis).ZRank`. -/
def Redis.ZRank {σ : Type} (r : Redis σ) (key member : String) (c : Conn σ) :
    (Int × Option GoError) × Conn σ :=
  let out := r.exec c "ZRANK" [.str key, .str member]
  match redis.Int64 out.1.1 out.1.2 with
  | (_, some .ErrNil) => ((-1, none), out.2)
  | (res, err) => ((res, err), out.2)

/-- `(*Redis).ZRevRank`. -/
def Redis.ZRevRank {σ : Type} (r : Redis σ) (key member : String) (c : Conn σ) :
    (Int × Option GoError) × Conn σ :=
  let out := r.exec c "ZREVRANK" [.str key, .str member]
  match redis.Int64 out.1.1 out.1.2 with
  | (_, some .ErrNil) => ((-1, none), out.2)
  | (res, err) => ((res, err), out.2)

/-- `(*Redis).ZRem`. -/
def Redis.ZRem {σ : Type} (r : Redis σ) (key : String) (members : List String) (c : Conn σ) :
    (Int × Option GoError) × Conn σ :=
  let args := packArgs [.scalar (.str key), .strings members]
  let out := r.exec c "ZREM" args
  match redis.Int64 out.1.1 out.1.2 with
  | (_, some .ErrNil) => ((0, none), out.2)
  | (res, err) => ((res, err), out.2)

/-- `(*Redis).ZRemRangeByRank`. -/
def Redis.ZRemRangeByRank {σ : Type} (r : Redis σ) (key : String) (start stop : Int)
    (c : Conn σ) : (Int × Option GoError) × Conn σ :=
  let args := [Arg.str key, Arg.int start, Arg.int stop]
  let out := r.exec c "ZREMRANGEBYRANK" args
  match redis.Int64 out.1.1 out.1.2 with
  | (_, some .ErrNil) => ((0, none), out.2)
  | (res, err) => ((res, err), out.2)

/-- `(*Redis).ZRemRangeByScore`. -/
def Redis.ZRemRangeByScore {σ : Type} (r : Redis σ) (key min max : String) (c : Conn σ) :
    (Int × Option GoError) × Conn σ :=
  let out := r.exec c "ZREMRANGEBYSCORE" [.str key, .str min, .str max]
  match redis.Int64 out.1.1 out.1.2 with
  | (_, some .ErrNil) => ((0, none), out.2)
  | (res, err) => ((res, err), out.2)

/-- `(*Redis).ZRemRangeByLex`. -/
def Redis.ZRemRangeByLex {σ : Type} (r : Redis σ) (key min max : String) (c : Conn σ) :
    (Int × Option GoError) × Conn σ :=
  let out := r.exec c "ZREMRANGEBYLEX" [.str key, .str min, .str max]
  match redis.Int64 out.1.1 out.1.2 with
  | (_, some .ErrNil) => ((0, none), out.2)
  | (res, err) => ((res, err), out.2)

/-! ## Application errors (`errors/error.go`) -/

/-- The struct `Error`: a numeric code and a message. -/
structure Error where
  ErrNo : Int
  ErrMsg : String
deriving DecidableEq, Repr

/-- The text `e.Error()` of an error of the redis layer; the quoting of the
number in a `strconv.NumError` is plain double quotes. -/
def GoError.Error : GoError → String
  | .ErrNil => "redigo: nil returned"
  | .redisError msg => msg
  | .errorString msg => msg
  | .numError fn num .ErrSyntax => "strconv." ++ fn ++ ": parsing \"" ++ num ++ "\": invalid syntax"
  | .numError fn num .ErrRange =>
    "strconv." ++ fn ++ ": parsing \"" ++ num ++ "\": value out of range"

/-- A non-nil value of the interface type `error`, by dynamic type: an `Error`
value, a non-nil `*Error` pointer (with the struct it points to), the two
wrappers of `github.com/pkg/errors`, which alone have a `Cause` method, and any
other error. The interface value `nil` is `none` of `Option ErrorValue`. -/
inductive ErrorValue
  | Error (a : Error)
  | ErrorPtr (a : Error)
  | withMessage (cause : ErrorValue) (msg : String)
  | withStack (err : ErrorValue)
  | other (e : GoError)
deriving DecidableEq, Repr

/-- The method `Error() string` of each dynamic type. `Error` has it on the
value receiver, so `*Error` has it too. -/
def ErrorValue.message : ErrorValue → String
  | .Error a => a.ErrMsg
  | .ErrorPtr a => a.ErrMsg
  | .withMessage cause msg => msg ++ ": " ++ cause.message
  | .withStack err => err.message
  | .other e => e.Error

/-- `NewError`: a pointer to a fresh struct. -/
def NewError (code : Int) (message : String) : ErrorValue :=
  .ErrorPtr ⟨code, message⟩

/-- The loop of `errors.Cause` of `github.com/pkg/errors` on a non-nil error:
follow `Cause()` while the error has that method. -/
def errors.causeLoop : ErrorValue → ErrorValue
  | .withMessage cause _ => errors.causeLoop cause
  | .withStack err => errors.causeLoop err
  | e => e

/-- `errors.Cause` of `github.com/pkg/errors`. -/
def errors.Cause (err : Option ErrorValue) : Option ErrorValue :=
  err.map errors.causeLoop

/-- `errors.Wrap` of `github.com/pkg/errors`: `nil` for `nil`, otherwise the
error annotated with the message and with a stack trace. -/
def errors.Wrap (err : Option ErrorValue) (message : String) : Option ErrorValue :=
  match err with
  | none => none
  | some e => some (.withStack (.withMessage e message))

/-- `Error.Equal`: the type switch has the one case `Error`, the value type. -/
def Error.Equal (err : Error) (e : Option ErrorValue) : Bool :=
  match errors.Cause e with
  | some (.Error cause) => err.ErrNo == cause.ErrNo
  | _ => false

/-- `Error.WrapPrint`. `fmt.Sprint` of a string and an error puts the text of
the error right after the string. -/
def Error.WrapPrint (err : Error) (core : Option ErrorValue) (message : String) :
    Option ErrorValue :=
  match core with
  | none => none
  | some c => errors.Wrap (some (.Error { err with ErrMsg := err.ErrMsg ++ c.message })) message

/-- `Error.WrapPrintf`. The two calls of `fmt.Sprintf` are parameters: the one
with the error as only operand and the one with the caller's operands. -/
def Error.WrapPrintf {β : Type} (sprintfCore : String → ErrorValue → String)
    (sprintf : String → List β → String) (err : Error) (core : Option ErrorValue)
    (format : String) (message : List β) : Option ErrorValue :=
  match core with
  | none => none
  | some c =>
    errors.Wrap (some (.Error { err with ErrMsg := sprintfCore err.ErrMsg c }))
      (sprintf format message)

/-- `Error.Wrap`. -/
def Error.Wrap (err : Error) (core : Option ErrorValue) : Option ErrorValue :=
  match core with
  | none => none
  | some c =>
    let msg := err.ErrMsg
    errors.Wrap (some (.Error { err with ErrMsg := c.message })) msg

/-- The contract of an integer-valued sorted-set operation that ran from the
connection `conn` and ended as `run`: it made exactly the round trip `cmd args`,
the executor moved on as `Do` says, and the result is read off what `Do`
answered: `(zero, nil)` on the nil reply and on the sentinel `ErrNil`, `(n, nil)`
on an integer reply `n`, and any other error as it is, next to the value 0. -/
def IntReplyContract {σ : Type} (zero : Int) (r : Redis σ) (conn : Conn σ) (cmd : String)
    (args : List Arg) (run : (Int × Option GoError) × Conn σ) : Prop :=
  run.2.state = (r.Do conn.state cmd args).2 ∧
  run.2.log = conn.log ++ [⟨cmd, args, (r.Do conn.state cmd args).1.1,
    (r.Do conn.state cmd args).1.2⟩] ∧
  ((r.Do conn.state cmd args).1 = (.nil, none) → run.1 = (zero, none)) ∧
  (∀ reply, (r.Do conn.state cmd args).1 = (reply, some .ErrNil) → run.1 = (zero, none)) ∧
  (∀ n, (r.Do conn.state cmd args).1 = (.int n, none) → run.1 = (n, none)) ∧
  (∀ reply e, (r.Do conn.state cmd args).1 = (reply, some e) → e ≠ .ErrNil →
    run.1 = (0, some e))

/-! ## Vocabulary of the statements, and executors to run them on -/

/-- The reply element that carries a payload: `nil` for an absent field, a bulk
string otherwise. -/
def payloadReply : Option Bytes → Reply
  | none => .nil
  | some b => .bulk b

/-- The fields of the `k`-th chunk: input positions `32k` up to, not including,
`min (32k + 32) N`. -/
def chunkOf (fields : List String) (k : Nat) : List String :=
  (fields.drop (32 * k)).take 32

/-- The round trip for chunk `p.1` answered with the payloads `p.2`. -/
def hmgetExchange (key : String) (fields : List String) (p : Nat × List (Option Bytes)) :
    Exchange :=
  ⟨"HMGET", Arg.str key :: (chunkOf fields p.1).map Arg.str, .array (p.2.map payloadReply), none⟩

/-- The flat field/value sequence of a list of pairs, as bulk strings. -/
def flatPairs (kvs : List (String × Bytes)) : List Reply :=
  kvs.flatMap fun p => [.bulk p.1, .bulk p.2]

/-- An executor that answers every request with one bulk string per argument
after the first: the argument itself when it is a string. Its state counts the
requests. -/
def echoRedis : Redis Nat :=
  ⟨fun s _ args =>
    ((.array (args.tail.map fun a =>
        match a with
        | .str f => .bulk f
        | _ => .nil), none), s + 1)⟩

/-- An executor that answers a request with one to 32 arguments after the first
like `echoRedis` and rejects any other, as a server does with `HMGET key`
without fields. -/
def strictEcho : Redis Nat :=
  ⟨fun s cmd args =>
    if 1 ≤ args.tail.length ∧ args.tail.length ≤ 32 then echoRedis.Do s cmd args
    else ((.error "ERR wrong number of arguments", none), s + 1)⟩

/-- An executor that answers like `echoRedis` until it has served `n` requests
and fails every later one with the error `e`. -/
def failAfter (n : Nat) (e : GoError) : Redis Nat :=
  ⟨fun s cmd args => if s < n then echoRedis.Do s cmd args else ((.nil, some e), s + 1)⟩

/-- An executor that gives the same answer to every request. -/
def constRedis (reply : Reply) (err : Option GoError) : Redis Unit :=
  ⟨fun s _ _ => ((reply, err), s)⟩

/-! ## `HMGet`: chunking -/

theorem pageNum_eq (n : Nat) (h : n < 2 ^ 53) : pageNum n = (n + 31) / 32 := by
  have h1 : n < 9007199254740992 := by norm_num at h; exact h
  simp [pageNum, float64OfInt, h1, _CHUNK_SIZE]

theorem byteSlicesElems_payloads (ps : List (Option Bytes)) :
    byteSlicesElems (ps.map payloadReply) = (ps, none) := by
  induction ps with
  | nil => rfl
  | cons p ps ih =>
    cases p <;> simp [payloadReply, byteSlicesElems, ih]

theorem goSlice_chunk (fields : List String) (i : Nat) (h : i < (fields.length + 31) / 32) :
    goSlice fields (i * _CHUNK_SIZE)
      (if i = (fields.length + 31) / 32 - 1 then fields.length else (i + 1) * _CHUNK_SIZE)
      = some (chunkOf fields i) := by
  unfold goSlice chunkOf _CHUNK_SIZE
  split_ifs with h1 h2 h3
  · simp only [Option.some.injEq]
    rw [Nat.mul_comm i 32]
    rw [List.take_of_length_le, List.take_of_length_le]
    · simp; omega
    · simp
  · omega
  · simp only [Option.some.injEq]
    rw [Nat.mul_comm i 32]
    congr 1
    omega
  · omega

theorem chunkOf_length (fields : List String) (k : Nat) :
    (chunkOf fields k).length = min 32 (fields.length - 32 * k) := by
  simp [chunkOf]

/-- The log of the loop of `HMGet`: every round trip is the request for the next
chunk, and one the executor fails is the last and decides the result. -/
theorem HMGet_loop_log {σ : Type} (r : Redis σ) (key : String) (fields : List String) :
    ∀ (k i : Nat) (res : List (Option Bytes)) (c : Conn σ), i + k = (fields.length + 31) / 32 →
      ∃ new : List Exchange,
        (Redis.HMGet.loop r key fields ((fields.length + 31) / 32) k i res c).2.log = c.log ++ new ∧
        ∀ t ex, new[t]? = some ex →
          (ex.cmd = "HMGET" ∧ ex.args = Arg.str key :: (chunkOf fields (i + t)).map Arg.str) ∧
          ∀ e, ex.err = some e →
            (Redis.HMGet.loop r key fields ((fields.length + 31) / 32) k i res c).1
              = .ret ([], some e) ∧ new.length = t + 1 := by
  intro k
  induction k with
  | zero =>
    intro i res c _
    exact ⟨[], by simp [Redis.HMGet.loop], by simp⟩
  | succ k ih =>
    intro i res c hik
    have hsl := goSlice_chunk fields i (by omega)
    rw [Redis.HMGet.loop]
    simp only [hsl]
    generalize hout : r.exec c "HMGET" (Arg.str key :: (chunkOf fields i).map Arg.str) = out
    obtain ⟨ex0, hlog, hcmd, hargs, herr0⟩ : ∃ ex0 : Exchange, out.2.log = c.log ++ [ex0] ∧
        ex0.cmd = "HMGET" ∧ ex0.args = Arg.str key :: (chunkOf fields i).map Arg.str ∧
        ex0.err = out.1.2 :=
      ⟨⟨"HMGET", Arg.str key :: (chunkOf fields i).map Arg.str, out.1.1, out.1.2⟩,
        by rw [← hout]; rfl, rfl, rfl, rfl⟩
    rcases herr : out.1.2 with _ | e0
    · rcases hbs : redis.ByteSlices out.1.1 none with ⟨ps, _ | e1⟩
      · obtain ⟨new, h1, h2⟩ := ih (i + 1) (res ++ ps) out.2 (by omega)
        refine ⟨ex0 :: new, ?_, ?_⟩
        · simp only [h1, hlog]; simp
        · intro t ex ht
          cases t with
          | zero =>
            simp only [List.getElem?_cons_zero, Option.some.injEq] at ht
            subst ht
            refine ⟨⟨hcmd, by simpa using hargs⟩, ?_⟩
            intro e he
            simp [herr0, herr] at he
          | succ t =>
            simp only [List.getElem?_cons_succ] at ht
            obtain ⟨h3, h4⟩ := h2 t ex ht
            refine ⟨?_, ?_⟩
            · rw [show i + (t + 1) = i + 1 + t by omega]; exact h3
            · intro e he
              obtain ⟨h5, h6⟩ := h4 e he
              exact ⟨h5, by simp [h6]⟩
      · refine ⟨[ex0], hlog, ?_⟩
        intro t ex ht
        cases t with
        | zero =>
          simp only [List.getElem?_cons_zero, Option.some.injEq] at ht
          subst ht
          refine ⟨⟨hcmd, by simpa using hargs⟩, ?_⟩
          intro e he
          simp [herr0, herr] at he
        | succ t => simp at ht
    · have hbs : redis.ByteSlices out.1.1 (some e0) = ([], some e0) := rfl
      rw [hbs]
      refine ⟨[ex0], hlog, ?_⟩
      intro t ex ht
      cases t with
      | zero =>
        simp only [List.getElem?_cons_zero, Option.some.injEq] at ht
        subst ht
        refine ⟨⟨hcmd, by simpa using hargs⟩, ?_⟩
        intro e he
        simp only [herr0, herr, Option.some.injEq] at he
        subst he
        exact ⟨rfl, rfl⟩
      | succ t => simp at ht

/-- The first round trip of a pass through the loop of `HMGet` is in the log,
right after what was logged before, with the answer the executor gave. -/
theorem HMGet_loop_first {σ : Type} (r : Redis σ) (key : String) (fields : List String)
    (k i : Nat) (res : List (Option Bytes)) (c : Conn σ)
    (hik : i + (k + 1) = (fields.length + 31) / 32) :
    ∃ rest : List Exchange,
      (Redis.HMGet.loop r key fields ((fields.length + 31) / 32) (k + 1) i res c).2.log
        = c.log ++ ⟨"HMGET", Arg.str key :: (chunkOf fields i).map Arg.str,
            (r.Do c.state "HMGET" (Arg.str key :: (chunkOf fields i).map Arg.str)).1.1,
            (r.Do c.state "HMGET" (Arg.str key :: (chunkOf fields i).map Arg.str)).1.2⟩
          :: rest := by
  have hsl := goSlice_chunk fields i (by omega)
  rw [Redis.HMGet.loop]
  simp only [hsl]
  split
  · exact ⟨[], rfl⟩
  · rename_i cacheRes _
    obtain ⟨new, h1, -⟩ := HMGet_loop_log r key fields k (i + 1) (res ++ cacheRes)
      (r.exec c "HMGET" (Arg.str key :: (chunkOf fields i).map Arg.str)).2 (by omega)
    exact ⟨new, by rw [h1]; simp [Redis.exec]⟩

/-- The loop of `HMGet` when every round trip it makes is answered with one
payload per field asked for: the result is the accumulator followed by the
answers, the log grows by one round trip per chunk. -/
theorem HMGet_loop_answered {σ : Type} (r : Redis σ) (key : String) (fields : List String) :
    ∀ (k i : Nat) (res : List (Option Bytes)) (c : Conn σ), i + k = (fields.length + 31) / 32 →
      (∀ ex ∈ (Redis.HMGet.loop r key fields ((fields.length + 31) / 32) k i res c).2.log.drop
          c.log.length,
        ∃ ps : List (Option Bytes), ps.length + 1 = ex.args.length ∧
          ex.reply = .array (ps.map payloadReply) ∧ ex.err = none) →
      ∃ pss : List (List (Option Bytes)),
        pss.length = k ∧
        (∀ p ∈ pss.enumFrom i, p.2.length = (chunkOf fields p.1).length) ∧
        (Redis.HMGet.loop r key fields ((fields.length + 31) / 32) k i res c).1
          = .ret (res ++ pss.flatten, none) ∧
        (Redis.HMGet.loop r key fields ((fields.length + 31) / 32) k i res c).2.log
          = c.log ++ (pss.enumFrom i).map (hmgetExchange key fields) := by
  intro k
  induction k with
  | zero =>
    intro i res c _ _
    exact ⟨[], rfl, by simp, by simp [Redis.HMGet.loop], by simp [Redis.HMGet.loop]⟩
  | succ k ih =>
    intro i res c hik hans
    obtain ⟨rest, hfirst⟩ := HMGet_loop_first r key fields k i res c hik
    obtain ⟨ps, hps, hreply, herr⟩ := hans
      ⟨"HMGET", Arg.str key :: (chunkOf fields i).map Arg.str,
        (r.Do c.state "HMGET" (Arg.str key :: (chunkOf fields i).map Arg.str)).1.1,
        (r.Do c.state "HMGET" (Arg.str key :: (chunkOf fields i).map Arg.str)).1.2⟩
      (by rw [hfirst]; simp)
    simp only [List.length_cons, List.length_map] at hps
    have hdo : (r.Do c.state "HMGET" (Arg.str key :: (chunkOf fields i).map Arg.str)).1
        = (.array (ps.map payloadReply), none) := Prod.ext hreply herr
    have hsl := goSlice_chunk fields i (by omega)
    have hstep : Redis.HMGet.loop r key fields ((fields.length + 31) / 32) (k + 1) i res c
        = Redis.HMGet.loop r key fields ((fields.length + 31) / 32) k (i + 1) (res ++ ps)
            (r.exec c "HMGET" (Arg.str key :: (chunkOf fields i).map Arg.str)).2 := by
      rw [Redis.HMGet.loop]
      simp only [hsl]
      simp only [Redis.exec, hdo, redis.ByteSlices, byteSlicesElems_payloads]
    rw [hstep] at hans hfirst ⊢
    have hlen1 : (r.exec c "HMGET" (Arg.str key :: (chunkOf fields i).map Arg.str)).2.log.length
        = c.log.length + 1 := by simp [Redis.exec]
    obtain ⟨pss, h1, h2, h3, h4⟩ := ih (i + 1) (res ++ ps)
      (r.exec c "HMGET" (Arg.str key :: (chunkOf fields i).map Arg.str)).2 (by omega)
      (by
        intro ex hex
        apply hans ex
        rw [hlen1, ← List.drop_drop] at hex
        exact List.mem_of_mem_drop hex)
    refine ⟨ps :: pss, by simp [h1], ?_, ?_, ?_⟩
    · intro p hp
      rw [List.enumFrom_cons, List.mem_cons] at hp
      rcases hp with rfl | hp
      · simp only; omega
      · exact h2 p hp
    · rw [h3]; simp
    · rw [h4]
      simp [Redis.exec, hdo, hmgetExchange, List.enumFrom_cons]

theorem flatten_length_chunks (fields : List String) :
    ∀ (pss : List (List (Option Bytes))) (i : Nat),
      (∀ p ∈ pss.enumFrom i, p.2.length = (chunkOf fields p.1).length) →
      i + pss.length = (fields.length + 31) / 32 →
      pss.flatten.length = fields.length - 32 * i := by
  intro pss
  induction pss with
  | nil => intro i _ h; simp at h ⊢; omega
  | cons ps pss ih =>
    intro i hp h
    have h0 := hp (i, ps) (by simp [List.enumFrom_cons])
    have h1 := ih (i + 1) (fun p hm => hp p (by simp [List.enumFrom_cons, hm]))
      (by simp at h ⊢; omega)
    simp only [List.flatten_cons, List.length_append, h1, h0, chunkOf_length]
    simp at h
    omega

theorem flatten_getElem?_chunks (fields : List String) :
    ∀ (pss : List (List (Option Bytes))) (i t : Nat),
      (∀ p ∈ pss.enumFrom i, p.2.length = (chunkOf fields p.1).length) →
      i + pss.length = (fields.length + 31) / 32 →
      pss.flatten[t]? = (pss.getD (t / 32) [])[t % 32]? := by
  intro pss
  induction pss with
  | nil => intro i t _ _; simp
  | cons ps pss ih =>
    intro i t hp h
    have h0 := hp (i, ps) (by simp [List.enumFrom_cons])
    have hp1 : ∀ p ∈ pss.enumFrom (i + 1), p.2.length = (chunkOf fields p.1).length :=
      fun p hm => hp p (by simp [List.enumFrom_cons, hm])
    have h1 := ih (i + 1) (t - 32) hp1 (by simp at h ⊢; omega)
    have hl := flatten_length_chunks fields pss (i + 1) hp1 (by simp at h ⊢; omega)
    rw [chunkOf_length] at h0
    dsimp only at h0
    simp only [List.length_cons] at h
    simp only [List.flatten_cons]
    by_cases ht : t < 32
    · have e1 : t / 32 = 0 := by omega
      have e2 : t % 32 = t := by omega
      rw [e1, e2]
      simp only [List.getD_cons_zero]
      by_cases ht2 : t < ps.length
      · rw [List.getElem?_append_left ht2]
      · rw [List.getElem?_append_right (by omega)]
        have : pss.flatten.length ≤ t - ps.length := by omega
        rw [List.getElem?_eq_none this, List.getElem?_eq_none (by omega)]
    · have e1 : t / 32 = (t - 32) / 32 + 1 := by omega
      have e2 : t % 32 = (t - 32) % 32 := by omega
      rw [e1, e2, List.getD_cons_succ, ← h1]
      rw [List.getElem?_append_right (by omega)]
      by_cases hfull : ps.length = 32
      · rw [hfull]
      · have : pss.flatten.length = 0 := by omega
        rw [List.getElem?_eq_none (by omega), List.getElem?_eq_none (by omega)]

/-- C1. When every HMGET request that `HMGet` makes is answered with one payload
(or absent marker) per field asked for, `HMGet` on `N` fields (a Go slice, so
`N < 2^53`) returns `N` payloads with a nil error and issues `⌈N/32⌉` requests:
none for `N = 0`, one for `1 ≤ N ≤ 32`; request `k` is `HMGET key` followed by
the input fields `32k .. min (32k+32) N - 1` in order; and payload `i` is element
`i % 32` of the reply to request `i / 32`, the executor's answer for field `i`.
Nothing is supposed of the executor on requests `HMGet` does not make. -/
theorem HMGet_chunked {σ : Type} (r : Redis σ) (key : String) (fields : List String) (s : σ)
    (hlen : fields.length < 2 ^ 53)
    (hans : ∀ ex ∈ (r.HMGet key fields ⟨s, []⟩).2.log,
      ∃ ps : List (Option Bytes), ps.length + 1 = ex.args.length ∧
        ex.reply = .array (ps.map payloadReply) ∧ ex.err = none) :
    ∃ payloads : List (Option Bytes),
      (r.HMGet key fields ⟨s, []⟩).1 = .ret (payloads, none) ∧
      payloads.length = fields.length ∧
      (r.HMGet key fields ⟨s, []⟩).2.log.length = (fields.length + 31) / 32 ∧
      (fields.length = 0 → (r.HMGet key fields ⟨s, []⟩).2.log = []) ∧
      (1 ≤ fields.length → fields.length ≤ 32 → (r.HMGet key fields ⟨s, []⟩).2.log.length = 1) ∧
      (∀ k, k < (fields.length + 31) / 32 → ∃ ex, (r.HMGet key fields ⟨s, []⟩).2.log[k]? = some ex ∧
        ex.cmd = "HMGET" ∧
        ex.args = Arg.str key :: ((fields.drop (32 * k)).take 32).map Arg.str) ∧
      (∀ i, i < fields.length → ∃ ex xs p, (r.HMGet key fields ⟨s, []⟩).2.log[i / 32]? = some ex ∧
        ex.reply = .array xs ∧ xs[i % 32]? = some (payloadReply p) ∧ payloads[i]? = some p) := by
  have hrun : r.HMGet key fields ⟨s, []⟩
      = Redis.HMGet.loop r key fields ((fields.length + 31) / 32)
          ((fields.length + 31) / 32) 0 [] ⟨s, []⟩ := by
    rw [Redis.HMGet, pageNum_eq _ hlen]
  obtain ⟨pss, h1, h2, h3, h4⟩ :=
    HMGet_loop_answered r key fields ((fields.length + 31) / 32) 0 [] ⟨s, []⟩ (by omega)
      (by rw [← hrun]; simpa using hans)
  have hlenP := flatten_length_chunks fields pss 0 h2 (by omega)
  have hidx := fun t => flatten_getElem?_chunks fields pss 0 t h2 (by omega)
  simp only [List.nil_append] at h3 h4
  have hlog : (r.HMGet key fields ⟨s, []⟩).2.log
      = (pss.enumFrom 0).map (hmgetExchange key fields) := by
    rw [hrun]; exact h4
  have hloglen : (r.HMGet key fields ⟨s, []⟩).2.log.length = (fields.length + 31) / 32 := by
    rw [hlog]; simp [h1]
  refine ⟨pss.flatten, ?_, by omega, hloglen, ?_, ?_, ?_, ?_⟩
  · rw [hrun]; exact h3
  · intro h0
    apply List.eq_nil_of_length_eq_zero
    rw [hloglen, h0]
  · intro ha hb
    rw [hloglen]; omega
  · intro k hk
    have hk1 : k < pss.length := by omega
    refine ⟨hmgetExchange key fields (k, pss[k]), ?_, rfl, rfl⟩
    rw [hlog, List.getElem?_map, List.getElem?_enumFrom, List.getElem?_eq_getElem hk1]
    simp
  · intro i hi
    have hk1 : i / 32 < pss.length := by omega
    have hsome : i < pss.flatten.length := by omega
    have hget := hidx i
    rw [List.getElem?_eq_getElem hsome, List.getD_eq_getElem _ _ hk1] at hget
    refine ⟨hmgetExchange key fields (i / 32, pss[i / 32]), pss[i / 32].map payloadReply,
      pss.flatten[i], ?_, rfl, ?_, ?_⟩
    · rw [hlog, List.getElem?_map, List.getElem?_enumFrom, List.getElem?_eq_getElem hk1]
      simp
    · rw [List.getElem?_map, ← hget]; rfl
    · exact List.getElem?_eq_getElem hsome

/-- C1 on the 34 fields `a` (32 times), `b`, `c`, against an executor that
rejects a request without fields or with more than 32: two requests, of 32 and
of 2 fields, and the 34 payloads in input order. -/
theorem HMGet_chunked_witness :
    (List.replicate 32 "a" ++ ["b", "c"]).length < 2 ^ 53 ∧
    (∀ ex ∈ (strictEcho.HMGet "k" (List.replicate 32 "a" ++ ["b", "c"]) ⟨0, []⟩).2.log,
      ∃ ps : List (Option Bytes), ps.length + 1 = ex.args.length ∧
        ex.reply = .array (ps.map payloadReply) ∧ ex.err = none) ∧
    (strictEcho.Do 0 "HMGET" [.str "k"]).1 = (.error "ERR wrong number of arguments", none) ∧
    (strictEcho.HMGet "k" (List.replicate 32 "a" ++ ["b", "c"]) ⟨0, []⟩).1
      = .ret (List.replicate 32 (some "a") ++ [some "b", some "c"], none) ∧
    ∃ payloads : List (Option Bytes),
      (strictEcho.HMGet "k" (List.replicate 32 "a" ++ ["b", "c"]) ⟨0, []⟩).1
        = .ret (payloads, none) ∧
      payloads.length = (List.replicate 32 "a" ++ ["b", "c"]).length ∧
      (strictEcho.HMGet "k" (List.replicate 32 "a" ++ ["b", "c"]) ⟨0, []⟩).2.log.length
        = ((List.replicate 32 "a" ++ ["b", "c"]).length + 31) / 32 := by
  have hlen : (List.replicate 32 "a" ++ ["b", "c"]).length < 2 ^ 53 := by simp
  have hlog : (strictEcho.HMGet "k" (List.replicate 32 "a" ++ ["b", "c"]) ⟨0, []⟩).2.log
      = [⟨"HMGET", Arg.str "k" :: (List.replicate 32 "a").map Arg.str,
            .array ((List.replicate 32 (some "a")).map payloadReply), none⟩,
          ⟨"HMGET", [.str "k", .str "b", .str "c"],
            .array ([some "b", some "c"].map payloadReply), none⟩] := by rfl
  have hans : ∀ ex ∈ (strictEcho.HMGet "k" (List.replicate 32 "a" ++ ["b", "c"]) ⟨0, []⟩).2.log,
      ∃ ps : List (Option Bytes), ps.length + 1 = ex.args.length ∧
        ex.reply = .array (ps.map payloadReply) ∧ ex.err = none := by
    intro ex hex
    rw [hlog] at hex
    simp only [List.mem_cons, List.mem_singleton, List.not_mem_nil, or_false] at hex
    rcases hex with rfl | rfl
    · exact ⟨List.replicate 32 (some "a"), by simp, rfl, rfl⟩
    · exact ⟨[some "b", some "c"], rfl, rfl, rfl⟩
  obtain ⟨payloads, h1, h2, h3, -⟩ :=
    HMGet_chunked strictEcho "k" (List.replicate 32 "a" ++ ["b", "c"]) 0 hlen hans
  exact ⟨hlen, hans, rfl, by rfl, payloads, h1, h2, h3⟩

/-! ## `HMGet`: failure of a chunk -/

/-- C2. When the round trip number `j` (counted from 0, so the `j+1`-th chunk
request) of a run of `HMGet` is failed by the executor with the error `e`, it is
the request for chunk `j`, every earlier round trip succeeded, `HMGet` returns
the nil result with exactly `e`, and the log ends there: `j + 1` requests were
issued and none of the payloads of the earlier chunks is returned. -/
theorem HMGet_aborts_on_failure {σ : Type} (r : Redis σ) (key : String) (fields : List String)
    (s : σ) (j : Nat) (ex : Exchange) (e : GoError)
    (hlen : fields.length < 2 ^ 53)
    (hj : (r.HMGet key fields ⟨s, []⟩).2.log[j]? = some ex)
    (he : ex.err = some e) :
    ex.cmd = "HMGET" ∧
    ex.args = Arg.str key :: ((fields.drop (32 * j)).take 32).map Arg.str ∧
    (∀ t, t < j → ∃ ex1, (r.HMGet key fields ⟨s, []⟩).2.log[t]? = some ex1 ∧ ex1.err = none) ∧
    (r.HMGet key fields ⟨s, []⟩).1 = .ret ([], some e) ∧
    (r.HMGet key fields ⟨s, []⟩).2.log.length = j + 1 := by
  obtain ⟨new, h1, h2⟩ :=
    HMGet_loop_log r key fields ((fields.length + 31) / 32) 0 [] ⟨s, []⟩ (by omega)
  have hrun : r.HMGet key fields ⟨s, []⟩
      = Redis.HMGet.loop r key fields ((fields.length + 31) / 32)
          ((fields.length + 31) / 32) 0 [] ⟨s, []⟩ := by
    rw [Redis.HMGet, pageNum_eq _ hlen]
  rw [hrun] at hj ⊢
  simp only [List.nil_append] at h1
  rw [h1] at hj ⊢
  obtain ⟨⟨h3, h4⟩, h5⟩ := h2 j ex hj
  obtain ⟨h6, h7⟩ := h5 e he
  refine ⟨h3, by simpa [chunkOf] using h4, ?_, h6, h7⟩
  intro t ht
  have htl : t < new.length := by omega
  refine ⟨new[t], List.getElem?_eq_getElem htl, ?_⟩
  rcases hne : new[t].err with _ | e1
  · rfl
  · have := (h2 t new[t] (List.getElem?_eq_getElem htl)).2 e1 hne
    omega

/-- C2 on forty fields, against an executor that serves one request and fails the
next with a transport error: the second chunk request is the failing one. -/
theorem HMGet_aborts_on_failure_witness :
    (List.replicate 40 "f").length < 2 ^ 53 ∧
    ((failAfter 1 (.errorString "connection reset")).HMGet "k" (List.replicate 40 "f")
      ⟨0, []⟩).2.log[1]?
      = some ⟨"HMGET", Arg.str "k" :: (List.replicate 8 "f").map Arg.str, .nil,
          some (.errorString "connection reset")⟩ ∧
    ((failAfter 1 (.errorString "connection reset")).HMGet "k" (List.replicate 40 "f")
      ⟨0, []⟩).1 = .ret ([], some (.errorString "connection reset")) ∧
    ((failAfter 1 (.errorString "connection reset")).HMGet "k" (List.replicate 40 "f")
      ⟨0, []⟩).2.log.length = 1 + 1 :=
  have hj : ((failAfter 1 (.errorString "connection reset")).HMGet "k" (List.replicate 40 "f")
      ⟨0, []⟩).2.log[1]?
      = some ⟨"HMGET", Arg.str "k" :: (List.replicate 8 "f").map Arg.str, .nil,
          some (.errorString "connection reset")⟩ := by rfl
  have h := HMGet_aborts_on_failure (failAfter 1 (.errorString "connection reset")) "k"
    (List.replicate 40 "f") 0 1 _ (.errorString "connection reset") (by simp) hj rfl
  ⟨by simp, hj, h.2.2.2.1, h.2.2.2.2⟩

/-! ## The lock -/

/-- A run of `tryLock` on a value whose wire string is not empty: one `SET`
round trip, and the outcome read off the executor's answer. -/
theorem tryLock_run {σ α : Type} (parseToString : α → String) (r : Redis σ) (key : String)
    (value : α) (expire : Nat) (exType : String) (c : Conn σ) (hs : parseToString value ≠ "") :
    (r.tryLock parseToString key value expire exType c).2.log
      = c.log ++ [⟨"SET",
          [.str key, .str (parseToString value), .str exType, .uint64 expire, .str "NX"],
          (r.Do c.state "SET"
            [.str key, .str (parseToString value), .str exType, .uint64 expire, .str "NX"]).1.1,
          (r.Do c.state "SET"
            [.str key, .str (parseToString value), .str exType, .uint64 expire, .str "NX"]).1.2⟩] ∧
    (r.tryLock parseToString key value expire exType c).1
      = match (r.Do c.state "SET"
          [.str key, .str (parseToString value), .str exType, .uint64 expire, .str "NX"]).1.2 with
        | some .ErrNil => (false, none)
        | some e => (false, some e)
        | none =>
          match (r.Do c.state "SET"
            [.str key, .str (parseToString value), .str exType, .uint64 expire, .str "NX"]).1.1 with
          | .bulk _ => (true, none)
          | .status _ => (true, none)
          | .nil => (false, none)
          | .error m => (false, some (.redisError m))
          | .int _ =>
            (false, some (.errorString "redigo: unexpected type for String, got type int64"))
          | .array _ =>
            (false,
              some (.errorString "redigo: unexpected type for String, got type []interface {}"))
      := by
  unfold Redis.tryLock
  simp only [hs, if_false, Redis.exec, NOTEXISTS]
  refine ⟨?_, ?_⟩
  · split <;> rfl
  · rcases r.Do c.state "SET"
      [.str key, .str (parseToString value), .str exType, .uint64 expire, .str "NX"]
      with ⟨⟨reply, _ | e⟩, s1⟩
    · cases reply <;> rfl
    · cases e <;> rfl

/-- The outcomes of `tryLock` by kind of answer, for any expiry unit. -/
theorem tryLock_outcomes {σ α : Type} (parseToString : α → String) (r : Redis σ) (key : String)
    (value : α) (expire : Nat) (exType : String) (c : Conn σ) (hs : parseToString value ≠ "") :
    ∃ reply err nxt,
      r.Do c.state "SET"
        [.str key, .str (parseToString value), .str exType, .uint64 expire, .str "NX"]
        = ((reply, err), nxt) ∧
      (r.tryLock parseToString key value expire exType c).2.log = c.log ++ [⟨"SET",
        [.str key, .str (parseToString value), .str exType, .uint64 expire, .str "NX"],
        reply, err⟩] ∧
      (err = none → (∃ b, reply = .bulk b ∨ reply = .status b) →
        (r.tryLock parseToString key value expire exType c).1 = (true, none)) ∧
      (err = none → reply = .nil →
        (r.tryLock parseToString key value expire exType c).1 = (false, none)) ∧
      (err = some .ErrNil →
        (r.tryLock parseToString key value expire exType c).1 = (false, none)) ∧
      (∀ e, err = some e → e ≠ .ErrNil →
        (r.tryLock parseToString key value expire exType c).1 = (false, some e)) := by
  obtain ⟨h1, h2⟩ := tryLock_run parseToString r key value expire exType c hs
  rcases hdo : r.Do c.state "SET"
    [.str key, .str (parseToString value), .str exType, .uint64 expire, .str "NX"]
    with ⟨⟨reply, err⟩, nxt⟩
  rw [hdo] at h1 h2
  refine ⟨reply, err, nxt, rfl, h1, ?_, ?_, ?_, ?_⟩
  · rintro rfl ⟨b, rfl | rfl⟩ <;> exact h2
  · rintro rfl rfl; exact h2
  · rintro rfl; exact h2
  · rintro e rfl hne
    rw [h2]
    cases e <;> first | exact absurd rfl hne | rfl

/-- C3. For a value whose wire string `s` is not empty and any expire (0
included), `SetNxByEX` issues exactly the request `SET key s EX expire NX` and
`SetNxByPX` exactly `SET key s PX expire NX`; each returns `(true, nil)` on a
string reply, `(false, nil)` on the nil reply or the `ErrNil` sentinel, and
`(false, e)` when the executor fails with any other error `e`. -/
theorem SetNx_request_and_outcome {σ α : Type} (parseToString : α → String) (r : Redis σ)
    (key : String) (value : α) (expire : Nat) (c : Conn σ) (hs : parseToString value ≠ "") :
    (∃ reply err nxt,
      r.Do c.state "SET"
        [.str key, .str (parseToString value), .str "EX", .uint64 expire, .str "NX"]
        = ((reply, err), nxt) ∧
      (r.SetNxByEX parseToString key value expire c).2.log = c.log ++ [⟨"SET",
        [.str key, .str (parseToString value), .str "EX", .uint64 expire, .str "NX"],
        reply, err⟩] ∧
      (err = none → (∃ b, reply = .bulk b ∨ reply = .status b) →
        (r.SetNxByEX parseToString key value expire c).1 = (true, none)) ∧
      (err = none → reply = .nil →
        (r.SetNxByEX parseToString key value expire c).1 = (false, none)) ∧
      (err = some .ErrNil →
        (r.SetNxByEX parseToString key value expire c).1 = (false, none)) ∧
      (∀ e, err = some e → e ≠ .ErrNil →
        (r.SetNxByEX parseToString key value expire c).1 = (false, some e))) ∧
    (∃ reply err nxt,
      r.Do c.state "SET"
        [.str key, .str (parseToString value), .str "PX", .uint64 expire, .str "NX"]
        = ((reply, err), nxt) ∧
      (r.SetNxByPX parseToString key value expire c).2.log = c.log ++ [⟨"SET",
        [.str key, .str (parseToString value), .str "PX", .uint64 expire, .str "NX"],
        reply, err⟩] ∧
      (err = none → (∃ b, reply = .bulk b ∨ reply = .status b) →
        (r.SetNxByPX parseToString key value expire c).1 = (true, none)) ∧
      (err = none → reply = .nil →
        (r.SetNxByPX parseToString key value expire c).1 = (false, none)) ∧
      (err = some .ErrNil →
        (r.SetNxByPX parseToString key value expire c).1 = (false, none)) ∧
      (∀ e, err = some e → e ≠ .ErrNil →
        (r.SetNxByPX parseToString key value expire c).1 = (false, some e))) :=
  ⟨tryLock_outcomes parseToString r key value expire "EX" c hs,
    tryLock_outcomes parseToString r key value expire "PX" c hs⟩

/-- C3 for the value `owner-1` and expire 0 against an executor that answers
`OK`: both variants make their one `SET` request and return `(true, nil)`. -/
theorem SetNx_request_and_outcome_witness :
    id "owner-1" ≠ "" ∧
    (Redis.SetNxByEX id (constRedis (.status "OK") none) "lock" "owner-1" 0 ⟨(), []⟩).1
      = (true, none) ∧
    (Redis.SetNxByEX id (constRedis (.status "OK") none) "lock" "owner-1" 0 ⟨(), []⟩).2.log
      = [⟨"SET", [.str "lock", .str "owner-1", .str "EX", .uint64 0, .str "NX"],
          .status "OK", none⟩] ∧
    (Redis.SetNxByPX id (constRedis (.status "OK") none) "lock" "owner-1" 0 ⟨(), []⟩).1
      = (true, none) ∧
    (Redis.SetNxByPX id (constRedis (.status "OK") none) "lock" "owner-1" 0 ⟨(), []⟩).2.log
      = [⟨"SET", [.str "lock", .str "owner-1", .str "PX", .uint64 0, .str "NX"],
          .status "OK", none⟩] := by
  have hs : id "owner-1" ≠ "" := by decide
  obtain ⟨⟨reply, err, nxt, hdo, hlog, hok, -⟩, ⟨reply2, err2, nxt2, hdo2, hlog2, hok2, -⟩⟩ :=
    SetNx_request_and_outcome id (constRedis (.status "OK") none) "lock" "owner-1" 0 ⟨(), []⟩ hs
  have h1 : reply = .status "OK" ∧ err = none := by
    simp only [constRedis, Prod.mk.injEq] at hdo
    exact ⟨hdo.1.1.symm, hdo.1.2.symm⟩
  have h2 : reply2 = .status "OK" ∧ err2 = none := by
    simp only [constRedis, Prod.mk.injEq] at hdo2
    exact ⟨hdo2.1.1.symm, hdo2.1.2.symm⟩
  refine ⟨hs, hok h1.2 ⟨"OK", Or.inr h1.1⟩, ?_, hok2 h2.2 ⟨"OK", Or.inr h2.1⟩, ?_⟩
  · rw [hlog, h1.1, h1.2]; rfl
  · rw [hlog2, h2.1, h2.2]; rfl

/-- C4. When the wire string of the value is empty, `SetNxByEX` and `SetNxByPX`
return `(false, err)` with the validation error `value is empty` and leave the
connection untouched: no request is issued. When it is not empty, each issues
exactly one request, and the error it returns is nil or the one decoded from the
executor's answer, so the validation error arises in the first case only. -/
theorem SetNx_empty_value {σ α : Type} (parseToString : α → String) (r : Redis σ)
    (key : String) (value : α) (expire : Nat) (c : Conn σ) :
    (parseToString value = "" →
      r.SetNxByEX parseToString key value expire c
        = ((false, some (.errorString "value is empty")), c) ∧
      r.SetNxByPX parseToString key value expire c
        = ((false, some (.errorString "value is empty")), c)) ∧
    (parseToString value ≠ "" →
      ((r.SetNxByEX parseToString key value expire c).2.log.length = c.log.length + 1 ∧
        ∃ ex, (r.SetNxByEX parseToString key value expire c).2.log = c.log ++ [ex] ∧
          ((r.SetNxByEX parseToString key value expire c).1.2 = none ∨
           (r.SetNxByEX parseToString key value expire c).1.2
             = (redis.String' ex.reply ex.err).2)) ∧
      ((r.SetNxByPX parseToString key value expire c).2.log.length = c.log.length + 1 ∧
        ∃ ex, (r.SetNxByPX parseToString key value expire c).2.log = c.log ++ [ex] ∧
          ((r.SetNxByPX parseToString key value expire c).1.2 = none ∨
           (r.SetNxByPX parseToString key value expire c).1.2
             = (redis.String' ex.reply ex.err).2))) := by
  have hne : ∀ exType : String, parseToString value ≠ "" →
      (r.tryLock parseToString key value expire exType c).2.log.length = c.log.length + 1 ∧
        ∃ ex, (r.tryLock parseToString key value expire exType c).2.log = c.log ++ [ex] ∧
          ((r.tryLock parseToString key value expire exType c).1.2 = none ∨
           (r.tryLock parseToString key value expire exType c).1.2
             = (redis.String' ex.reply ex.err).2) := by
    intro exType hs
    unfold Redis.tryLock
    simp only [hs, if_false, Redis.exec]
    generalize r.Do c.state "SET"
      [.str key, .str (parseToString value), .str exType, .uint64 expire, .str NOTEXISTS] = out
    rcases hstr : (redis.String' out.1.1 out.1.2).2 with _ | e
    · exact ⟨by simp, _, rfl, Or.inl rfl⟩
    · cases e
      · exact ⟨by simp, _, rfl, Or.inl rfl⟩
      all_goals exact ⟨by simp, _, rfl, Or.inr (by simp [hstr])⟩
  refine ⟨?_, ?_⟩
  · intro hs
    simp [Redis.SetNxByEX, Redis.SetNxByPX, Redis.tryLock, hs]
  · intro hs
    exact ⟨hne EXSECONDS hs, hne PXMILLISSECONDS hs⟩

/-! ## Decimal strings -/

theorem digitChar_isDigit (m : Nat) (h : m < 10) :
    (Nat.digitChar m).isDigit = true ∧ (Nat.digitChar m).toNat - 48 = m := by
  interval_cases m <;> decide

/-- Reading the digits `Nat.toDigitsCore` puts in front of `ds` leaves the digit
loop of `ParseUint` at `ds` with the number accumulated. -/
theorem parseUintLoop_toDigitsCore :
    ∀ (fuel n : Nat) (ds : List Char), n < fuel → n < 2 ^ 64 →
      strconv.parseUintLoop (Nat.toDigitsCore 10 fuel n ds) 0 = strconv.parseUintLoop ds n := by
  intro fuel
  induction fuel with
  | zero => intro n ds h; omega
  | succ fuel ih =>
    intro n ds hf hn
    have hd := digitChar_isDigit (n % 10) (Nat.mod_lt _ (by norm_num))
    have hn' : n < 18446744073709551616 := by norm_num at hn; exact hn
    rw [Nat.toDigitsCore]
    by_cases h0 : n / 10 = 0
    · simp only [h0, if_true]
      have : n % 10 = n := by omega
      rw [strconv.parseUintLoop]
      simp only [hd.1, if_true, hd.2]
      norm_num
      rw [Nat.mod_eq_of_lt (by omega), this]
      rw [if_neg (by omega)]
    · simp only [h0, if_false]
      rw [ih (n / 10) _ (by omega) (by omega)]
      rw [strconv.parseUintLoop]
      simp only [hd.1, if_true, hd.2]
      have h1 : ¬ (n / 10 ≥ 1844674407370955162) := by omega
      simp only [h1, if_false]
      have h2 : n / 10 * 10 % 2 ^ 64 = n / 10 * 10 := Nat.mod_eq_of_lt (by norm_num; omega)
      have h3 : (n / 10 * 10 + n % 10) % 2 ^ 64 = n := by
        rw [Nat.mod_eq_of_lt (by norm_num; omega)]; omega
      rw [h2, h3]
      have h4 : ¬ (n < n / 10 * 10 ∨ n > 2 ^ 64 - 1) := by norm_num; omega
      simp only [h4, if_false]

theorem toDigitsCore_head_aux :
    ∀ (fuel n : Nat) (ds : List Char), (∃ m tl, m < 10 ∧ ds = Nat.digitChar m :: tl) →
      ∃ m tl, m < 10 ∧ Nat.toDigitsCore 10 fuel n ds = Nat.digitChar m :: tl := by
  intro fuel
  induction fuel with
  | zero => intro n ds h; simpa [Nat.toDigitsCore] using h
  | succ fuel ih =>
    intro n ds _
    rw [Nat.toDigitsCore]
    by_cases h0 : n / 10 = 0
    · simp only [h0, if_true]
      exact ⟨n % 10, ds, Nat.mod_lt _ (by norm_num), rfl⟩
    · simp only [h0, if_false]
      exact ih _ _ ⟨n % 10, ds, Nat.mod_lt _ (by norm_num), rfl⟩

/-- The decimal string of a number starts with a digit. -/
theorem toDigits_head (n : Nat) :
    ∃ m tl, m < 10 ∧ Nat.toDigits 10 n = Nat.digitChar m :: tl := by
  rw [Nat.toDigits, Nat.toDigitsCore]
  by_cases h0 : n / 10 = 0
  · simp only [h0, if_true]
    exact ⟨n % 10, [], Nat.mod_lt _ (by norm_num), rfl⟩
  · simp only [h0, if_false]
    exact toDigitsCore_head_aux _ _ _ ⟨n % 10, [], Nat.mod_lt _ (by norm_num), rfl⟩

theorem parseUint_toDigits (n : Nat) (h : n < 2 ^ 64) :
    strconv.parseUint (Nat.toDigits 10 n) = (n, none) := by
  obtain ⟨m, tl, _, hm⟩ := toDigits_head n
  have h1 : strconv.parseUint (Nat.toDigits 10 n)
      = strconv.parseUintLoop (Nat.toDigits 10 n) 0 := by
    rw [hm]; rfl
  rw [h1, Nat.toDigits, parseUintLoop_toDigitsCore _ _ _ (by omega) h]
  rfl

/-- `strconv.ParseInt` on the decimal string of an unsigned 64-bit number: the
number itself below `2^63`, a range error from `2^63` on. -/
theorem ParseInt_toString (n : Nat) (h : n < 2 ^ 64) :
    strconv.ParseInt (toString n)
      = if n < 2 ^ 63 then ((n : Int), none)
        else (2 ^ 63 - 1, some (.numError "ParseInt" (toString n) .ErrRange)) := by
  obtain ⟨m, tl, hm10, hm⟩ := toDigits_head n
  have hl : (toString n).toList = Nat.toDigits 10 n := rfl
  have hsign : Nat.digitChar m ≠ '+' ∧ Nat.digitChar m ≠ '-' := by
    interval_cases m <;> decide
  have hp := parseUint_toDigits n h
  rw [hm] at hp
  unfold strconv.ParseInt
  rw [hl, hm]
  simp only [hsign.1, hsign.2, or_self, if_false, hp, decide_False]
  have e63 : (2 : Nat) ^ 63 = 9223372036854775808 := by norm_num
  rw [e63]
  by_cases h63 : n < 9223372036854775808
  · have h1 : ¬ (9223372036854775808 ≤ n) := by omega
    simp [h63, h1]
  · have h1 : 9223372036854775808 ≤ n := by omega
    simp [h63, h1]

/-! ## `parseScanResults` -/

theorem scanLoop_odd_panics :
    ∀ (n : Nat) (flat : List Reply) (m : GoMap), flat.length = 2 * n + 1 →
      ∃ msg, parseScanResults.loop flat m = .panic msg := by
  intro n
  induction n with
  | zero =>
    intro flat m h
    match flat, h with
    | [x], _ => cases x <;> exact ⟨_, rfl⟩
  | succ n ih =>
    intro flat m h
    match flat, h with
    | x :: y :: rest, h =>
      have hr : rest.length = 2 * n + 1 := by simp at h; omega
      cases x with
      | bulk k =>
        cases y with
        | bulk v =>
          obtain ⟨msg, hmsg⟩ := ih rest (m.set k v) hr
          exact ⟨msg, by rw [parseScanResults.loop]; exact hmsg⟩
        | _ => exact ⟨_, rfl⟩
      | _ => exact ⟨_, rfl⟩

theorem scanLoop_flatPairs :
    ∀ (kvs : List (String × Bytes)) (m : GoMap),
      parseScanResults.loop (flatPairs kvs) m
        = .ret (kvs.foldl (fun acc p => acc.set p.1 p.2) m) := by
  intro kvs
  induction kvs with
  | nil => intro m; rfl
  | cons p kvs ih =>
    intro m
    have : flatPairs (p :: kvs) = .bulk p.1 :: .bulk p.2 :: flatPairs kvs := by
      simp [flatPairs]
    rw [this, parseScanResults.loop, ih]
    rfl

theorem GoMap.mem_set (m : GoMap) (k : String) (w : Bytes) (f : String) (v : Bytes) :
    (f, v) ∈ m.set k w ↔ (f = k ∧ v = w) ∨ ((f, v) ∈ m ∧ f ≠ k) := by
  simp [GoMap.set, List.mem_filter]

theorem GoMap.keys_set (m : GoMap) (k : String) (w : Bytes) (f : String) :
    f ∈ (m.set k w).map Prod.fst ↔ f = k ∨ f ∈ m.map Prod.fst := by
  simp only [GoMap.set, List.map_cons, List.mem_cons, List.mem_map, List.mem_filter]
  constructor
  · rintro (h | ⟨p, ⟨hp, _⟩, rfl⟩)
    · exact Or.inl h
    · exact Or.inr ⟨p, hp, rfl⟩
  · rintro (h | ⟨p, hp, rfl⟩)
    · exact Or.inl h
    · by_cases hk : p.1 = k
      · exact Or.inl hk
      · exact Or.inr ⟨p, ⟨hp, by simpa using hk⟩, rfl⟩

theorem GoMap.nodup_set (m : GoMap) (k : String) (w : Bytes) (h : (m.map Prod.fst).Nodup) :
    ((m.set k w).map Prod.fst).Nodup := by
  simp only [GoMap.set, List.map_cons, List.nodup_cons]
  refine ⟨?_, ?_⟩
  · simp [List.mem_filter]
  · exact h.sublist ((List.filter_sublist m).map Prod.fst)

theorem foldl_set_nodup :
    ∀ (kvs : List (String × Bytes)) (m : GoMap), (m.map Prod.fst).Nodup →
      ((kvs.foldl (fun acc p => acc.set p.1 p.2) m).map Prod.fst).Nodup := by
  intro kvs
  induction kvs with
  | nil => intro m h; exact h
  | cons p kvs ih => intro m h; exact ih _ (GoMap.nodup_set m p.1 p.2 h)

theorem foldl_set_keys (f : String) :
    ∀ (kvs : List (String × Bytes)) (m : GoMap),
      f ∈ (kvs.foldl (fun acc p => acc.set p.1 p.2) m).map Prod.fst
        ↔ f ∈ kvs.map Prod.fst ∨ f ∈ m.map Prod.fst := by
  intro kvs
  induction kvs with
  | nil => intro m; simp
  | cons p kvs ih =>
    intro m
    rw [List.foldl_cons, ih, GoMap.keys_set]
    simp only [List.map_cons, List.mem_cons]
    tauto

theorem foldl_set_mem (f : String) (v : Bytes) :
    ∀ (kvs : List (String × Bytes)) (m : GoMap),
      (f, v) ∈ kvs.foldl (fun acc p => acc.set p.1 p.2) m
        ↔ (∃ pre post, kvs = pre ++ (f, v) :: post ∧ ∀ p ∈ post, p.1 ≠ f)
          ∨ ((f, v) ∈ m ∧ ∀ p ∈ kvs, p.1 ≠ f) := by
  intro kvs
  induction kvs with
  | nil => intro m; simp
  | cons q kvs ih =>
    intro m
    rw [List.foldl_cons, ih, GoMap.mem_set]
    constructor
    · rintro (⟨pre, post, rfl, hpost⟩ | ⟨(⟨rfl, rfl⟩ | ⟨hm, hne⟩), hall⟩)
      · exact Or.inl ⟨q :: pre, post, rfl, hpost⟩
      · exact Or.inl ⟨[], kvs, rfl, hall⟩
      · refine Or.inr ⟨hm, ?_⟩
        intro p hp
        rcases List.mem_cons.1 hp with rfl | hp
        · exact fun h => hne h.symm
        · exact hall p hp
    · rintro (⟨pre, post, hsplit, hpost⟩ | ⟨hm, hall⟩)
      · cases pre with
        | nil =>
          simp only [List.nil_append, List.cons.injEq] at hsplit
          obtain ⟨rfl, rfl⟩ := hsplit
          exact Or.inr ⟨Or.inl ⟨rfl, rfl⟩, hpost⟩
        | cons a pre =>
          simp only [List.cons_append, List.cons.injEq] at hsplit
          obtain ⟨rfl, rfl⟩ := hsplit
          exact Or.inl ⟨pre, post, rfl, hpost⟩
      · refine Or.inr ⟨Or.inr ⟨hm, ?_⟩, fun p hp => hall p (List.mem_cons_of_mem _ hp)⟩
        exact fun h => hall q (List.mem_cons_self _ _) h.symm

theorem uint64OfInt_natCast (n : Nat) (h : n < 2 ^ 64) : uint64OfInt (n : Int) = n := by
  unfold uint64OfInt
  have h1 : ((n : Int) % 2 ^ 64) = (n : Int) := by
    apply Int.emod_eq_of_lt
    · exact Int.natCast_nonneg n
    · exact_mod_cast h
  rw [h1, Int.toNat_natCast]

/-- What `HScan` does with a non-error reply of the executor: it decodes it. -/
theorem HScan_decodes {σ : Type} (r : Redis σ) (key : String) (cursor : Nat) (pattern : String)
    (count : Int) (conn : Conn σ) (values : List Reply)
    (hdo : ∀ args, (r.Do conn.state "HSCAN" args).1 = (.array values, none)) :
    (r.HScan key cursor pattern count conn).1 = parseScanResults values := by
  unfold Redis.HScan
  simp only [Redis.exec, hdo, redis.Values]

/-- C5 (the code breaks it). On a two-element reply whose cursor is the decimal
string of a number below `2^63` and whose second element has odd length,
`parseScanResults`, and `HScan` with it, does not return at all: it panics, on
the index `i+1` past the end or on a type assertion before it. No decode error
is returned. -/
theorem HScan_odd_reply_panics {σ : Type} (r : Redis σ) (key : String) (cursor : Nat)
    (pattern : String) (count : Int) (conn : Conn σ) (c : Nat) (flat : List Reply)
    (hc : c < 2 ^ 63) (hodd : flat.length % 2 = 1)
    (hdo : ∀ args, (r.Do conn.state "HSCAN" args).1
      = (.array [.bulk (toString c), .array flat], none)) :
    ∃ msg, parseScanResults [.bulk (toString c), .array flat] = .panic msg ∧
      (r.HScan key cursor pattern count conn).1 = .panic msg := by
  obtain ⟨msg, hmsg⟩ := scanLoop_odd_panics (flat.length / 2) flat [] (by omega)
  have hp : strconv.ParseInt (toString c) = ((c : Int), none) := by
    rw [ParseInt_toString c (by omega), if_pos hc]
  have hpanic : parseScanResults [.bulk (toString c), .array flat] = .panic msg := by
    simp only [parseScanResults, hp, hmsg]
  exact ⟨msg, hpanic, by rw [HScan_decodes r key cursor pattern count conn _ hdo, hpanic]⟩

/-- C5 at the reply `["0", ["f"]]`: the field `f` has no value, and the decoder
panics with an index out of range. -/
theorem HScan_odd_reply_panics_witness :
    0 < 2 ^ 63 ∧ [Reply.bulk "f"].length % 2 = 1 ∧
    parseScanResults [.bulk (toString 0), .array [.bulk "f"]] = .panic "index out of range" ∧
    ((constRedis (.array [.bulk (toString 0), .array [.bulk "f"]]) none).HScan
      "h" 0 "" 0 ⟨(), []⟩).1 = .panic "index out of range" := by
  obtain ⟨msg, h1, h2⟩ := HScan_odd_reply_panics
    (constRedis (.array [.bulk (toString 0), .array [.bulk "f"]]) none) "h" 0 "" 0 ⟨(), []⟩
    0 [.bulk "f"] (by norm_num) rfl (fun _ => rfl)
  have h3 : parseScanResults [.bulk (toString 0), .array [.bulk "f"]]
      = .panic "index out of range" := rfl
  rw [h3] at h1
  cases h1
  exact ⟨by norm_num, rfl, h3, h2⟩

/-- What `HScan` returns, read off the executor's answer to the one request it
makes. -/
theorem HScan_result {σ : Type} (r : Redis σ) (key : String) (cursor : Nat) (pattern : String)
    (count : Int) (conn : Conn σ) (values : List Reply)
    (hdo : (r.Do conn.state "HSCAN"
      ([.str key, .uint64 cursor]
        ++ (if pattern ≠ "" then [.str "MATCH", .str pattern] else [])
        ++ (if count > 0 then [.str "COUNT", .int count] else []))).1 = (.array values, none)) :
    (r.HScan key cursor pattern count conn).1 = parseScanResults values := by
  have hargs : (if count > 0 then
        (if pattern ≠ "" then
          packArgs [.scalar (.str key), .scalar (.uint64 cursor)] ++ [.str "MATCH", .str pattern]
        else packArgs [.scalar (.str key), .scalar (.uint64 cursor)])
          ++ [.str "COUNT", .int count]
      else
        (if pattern ≠ "" then
          packArgs [.scalar (.str key), .scalar (.uint64 cursor)] ++ [.str "MATCH", .str pattern]
        else packArgs [.scalar (.str key), .scalar (.uint64 cursor)]))
      = [Arg.str key, Arg.uint64 cursor]
        ++ (if pattern ≠ "" then [.str "MATCH", .str pattern] else [])
        ++ (if count > 0 then [.str "COUNT", .int count] else []) := by
    split_ifs <;> simp [packArgs]
  unfold Redis.HScan
  simp only [hargs, Redis.exec, hdo, redis.Values]

/-- C6 (the code breaks it from cursor `2^63` on, by the defect of C7). On the
reply to its request whose element 0 is the decimal string of an unsigned 64-bit
cursor `c` and whose element 1 is the flat sequence `f0, v0, f1, v1, ...` of a
list of pairs: for `c < 2^63`, `HScan` returns `c`, a nil error and a map whose
keys are exactly the fields of the sequence, each once, and in which a field is
bound to `v` exactly when `(f, v)` is the last pair with that field; for
`2^63 ≤ c`, it returns the cursor 0, no map at all and a range error. -/
theorem HScan_even_reply_map {σ : Type} (r : Redis σ) (key : String) (cursor : Nat)
    (pattern : String) (count : Int) (conn : Conn σ) (c : Nat) (kvs : List (String × Bytes))
    (hc : c < 2 ^ 64)
    (hdo : (r.Do conn.state "HSCAN"
      ([.str key, .uint64 cursor]
        ++ (if pattern ≠ "" then [.str "MATCH", .str pattern] else [])
        ++ (if count > 0 then [.str "COUNT", .int count] else []))).1
      = (.array [.bulk (toString c), .array (flatPairs kvs)], none)) :
    (c < 2 ^ 63 → ∃ m : GoMap,
      (r.HScan key cursor pattern count conn).1 = .ret (c, m, none) ∧
      (∀ f, f ∈ m.map Prod.fst ↔ f ∈ kvs.map Prod.fst) ∧
      (m.map Prod.fst).Nodup ∧
      (∀ f v, (f, v) ∈ m ↔ ∃ pre post, kvs = pre ++ (f, v) :: post ∧ ∀ p ∈ post, p.1 ≠ f)) ∧
    (2 ^ 63 ≤ c →
      (r.HScan key cursor pattern count conn).1
        = .ret (0, [], some (.numError "ParseInt" (toString c) .ErrRange))) := by
  rw [HScan_result r key cursor pattern count conn _ hdo]
  have hp := ParseInt_toString c hc
  refine ⟨?_, ?_⟩
  · intro h63
    rw [if_pos h63] at hp
    refine ⟨kvs.foldl (fun acc p => acc.set p.1 p.2) [], ?_, ?_, ?_, ?_⟩
    · simp only [parseScanResults, hp, scanLoop_flatPairs, uint64OfInt_natCast c hc]
    · intro f
      simpa using foldl_set_keys f kvs []
    · exact foldl_set_nodup kvs [] (by simp)
    · intro f v
      simpa using foldl_set_mem f v kvs []
  · intro h63
    rw [if_neg (by omega)] at hp
    simp only [parseScanResults, hp]

/-- C6 at the cursor `2^63` and the page `f, v`, and at the cursor 17 and the
page `a, 1, b, 2, a, 3`: the first gives a range error and no map, the second
the map that binds `a` to `3` and `b` to `2`. -/
theorem HScan_even_reply_map_witness :
    9223372036854775808 < 2 ^ 64 ∧
    (constRedis (.array [.bulk (toString 9223372036854775808), .array (flatPairs [("f", "v")])])
      none).Do () "HSCAN" ([.str "h", .uint64 0]
        ++ (if "" ≠ "" then [.str "MATCH", .str ""] else [])
        ++ (if (0 : Int) > 0 then [.str "COUNT", .int 0] else []))
      = ((.array [.bulk (toString 9223372036854775808), .array (flatPairs [("f", "v")])], none),
          ()) ∧
    ((constRedis (.array [.bulk (toString 9223372036854775808), .array (flatPairs [("f", "v")])])
      none).HScan "h" 0 "" 0 ⟨(), []⟩).1
      = .ret (0, [], some (.numError "ParseInt" "9223372036854775808" .ErrRange)) ∧
    ((constRedis (.array [.bulk (toString 17),
        .array (flatPairs [("a", "1"), ("b", "2"), ("a", "3")])])
      none).HScan "h" 0 "" 0 ⟨(), []⟩).1 = .ret (17, [("a", "3"), ("b", "2")], none) := by
  have h := HScan_even_reply_map
    (constRedis (.array [.bulk (toString 9223372036854775808), .array (flatPairs [("f", "v")])])
      none) "h" 0 "" 0 ⟨(), []⟩ 9223372036854775808 [("f", "v")] (by norm_num) rfl
  exact ⟨by norm_num, rfl, h.2 (by norm_num), by rfl⟩

/-- C7 (the code breaks it from `2^63` on). On a reply whose element 0 is the
decimal string of an unsigned 64-bit cursor `c` and whose element 1 is an
even-length flat sequence, `HScan` returns `c` with a nil error when `c < 2^63`;
for `2^63 ≤ c < 2^64` the signed `strconv.ParseInt` rejects the string and
`HScan` returns the cursor 0, no map, and the range error. -/
theorem HScan_cursor_signed {σ : Type} (r : Redis σ) (key : String) (cursor : Nat)
    (pattern : String) (count : Int) (conn : Conn σ) (c : Nat) (kvs : List (String × Bytes))
    (hc : c < 2 ^ 64)
    (hdo : ∀ args, (r.Do conn.state "HSCAN" args).1
      = (.array [.bulk (toString c), .array (flatPairs kvs)], none)) :
    (r.HScan key cursor pattern count conn).1
      = if c < 2 ^ 63 then .ret (c, kvs.foldl (fun acc p => acc.set p.1 p.2) [], none)
        else .ret (0, [], some (.numError "ParseInt" (toString c) .ErrRange)) := by
  rw [HScan_decodes r key cursor pattern count conn _ hdo]
  have hp := ParseInt_toString c hc
  by_cases h63 : c < 2 ^ 63
  · rw [if_pos h63] at hp ⊢
    simp only [parseScanResults, hp, scanLoop_flatPairs, uint64OfInt_natCast c hc]
  · rw [if_neg h63] at hp ⊢
    simp only [parseScanResults, hp]

/-- C7 at the cursor `2^63 = 9223372036854775808` with an empty page: `HScan`
returns cursor 0 and a range error instead of the cursor. -/
theorem HScan_cursor_signed_witness :
    9223372036854775808 < 2 ^ 64 ∧
    ((constRedis (.array [.bulk (toString 9223372036854775808), .array (flatPairs [])])
      none).HScan "h" 0 "" 0 ⟨(), []⟩).1
      = .ret (0, [], some (.numError "ParseInt" "9223372036854775808" .ErrRange)) := by
  have h := HScan_cursor_signed
    (constRedis (.array [.bulk (toString 9223372036854775808), .array (flatPairs [])]) none)
    "h" 0 "" 0 ⟨(), []⟩ 9223372036854775808 [] (by norm_num) (fun _ => rfl)
  rw [if_neg (by norm_num)] at h
  exact ⟨by norm_num, h⟩

/-! ## Argument lists -/

/-- C8. `HScan` and `ZScan` each make exactly one round trip, `HSCAN`
respectively `ZSCAN`, whose arguments are the key, the cursor, then `MATCH` and
the pattern unchanged exactly when the pattern is not empty, then `COUNT` and
the count exactly when the count is positive, and nothing else. -/
theorem scan_request {σ : Type} (r : Redis σ) (key : String) (cursor : Nat) (pattern : String)
    (count : Int) (conn : Conn σ) :
    (∃ ex, (r.HScan key cursor pattern count conn).2.log = conn.log ++ [ex] ∧
      ex.cmd = "HSCAN" ∧
      ex.args = [.str key, .uint64 cursor]
        ++ (if pattern ≠ "" then [.str "MATCH", .str pattern] else [])
        ++ (if count > 0 then [.str "COUNT", .int count] else [])) ∧
    (∃ ex, (r.ZScan key cursor pattern count conn).2.log = conn.log ++ [ex] ∧
      ex.cmd = "ZSCAN" ∧
      ex.args = [.str key, .uint64 cursor]
        ++ (if pattern ≠ "" then [.str "MATCH", .str pattern] else [])
        ++ (if count > 0 then [.str "COUNT", .int count] else [])) := by
  have hargs : (if count > 0 then
        (if pattern ≠ "" then
          packArgs [.scalar (.str key), .scalar (.uint64 cursor)] ++ [.str "MATCH", .str pattern]
        else packArgs [.scalar (.str key), .scalar (.uint64 cursor)])
          ++ [.str "COUNT", .int count]
      else
        (if pattern ≠ "" then
          packArgs [.scalar (.str key), .scalar (.uint64 cursor)] ++ [.str "MATCH", .str pattern]
        else packArgs [.scalar (.str key), .scalar (.uint64 cursor)]))
      = [Arg.str key, Arg.uint64 cursor]
        ++ (if pattern ≠ "" then [.str "MATCH", .str pattern] else [])
        ++ (if count > 0 then [.str "COUNT", .int count] else []) := by
    split_ifs <;> simp [packArgs]
  refine ⟨?_, ?_⟩
  · unfold Redis.HScan
    simp only [hargs, Redis.exec]
    split <;> exact ⟨_, rfl, rfl, rfl⟩
  · unfold Redis.ZScan
    simp only [hargs, Redis.exec]
    split
    · exact ⟨_, rfl, rfl, rfl⟩
    · split <;> exact ⟨_, rfl, rfl, rfl⟩

/-- C9. `ZRangeByScore` makes one `ZRANGEBYSCORE` round trip with the arguments
key, min, max and `ZRevRangeByScore` one `ZREVRANGEBYSCORE` round trip with key,
max, min; each is followed by `WITHSCORES` exactly when `withscores` is set and
then by `LIMIT offset count` exactly when `limit` is set, and by nothing else.
For `min = "-inf"` and `max = "(2"` the reverse variant sends key, `(2`, `-inf`. -/
theorem rangeByScore_request {σ : Type} (r : Redis σ) (key min max : String)
    (withscores limit : Bool) (offset count : Int) (conn : Conn σ) :
    (∃ ex, (r.ZRangeByScore key min max withscores limit offset count conn).2.log
        = conn.log ++ [ex] ∧
      ex.cmd = "ZRANGEBYSCORE" ∧
      ex.args = [.str key, .str min, .str max]
        ++ (if withscores then [.str "WITHSCORES"] else [])
        ++ (if limit then [.str "LIMIT", .int offset, .int count] else [])) ∧
    (∃ ex, (r.ZRevRangeByScore key min max withscores limit offset count conn).2.log
        = conn.log ++ [ex] ∧
      ex.cmd = "ZREVRANGEBYSCORE" ∧
      ex.args = [.str key, .str max, .str min]
        ++ (if withscores then [.str "WITHSCORES"] else [])
        ++ (if limit then [.str "LIMIT", .int offset, .int count] else [])) ∧
    (∃ ex, (r.ZRevRangeByScore key "-inf" "(2" false false offset count conn).2.log
        = conn.log ++ [ex] ∧
      ex.cmd = "ZREVRANGEBYSCORE" ∧ ex.args = [.str key, .str "(2", .str "-inf"]) := by
  refine ⟨?_, ?_, ?_⟩
  · unfold Redis.ZRangeByScore
    simp only [Redis.exec]
    split
    · refine ⟨_, rfl, rfl, ?_⟩
      cases withscores <;> cases limit <;> rfl
    · refine ⟨_, rfl, rfl, ?_⟩
      cases withscores <;> cases limit <;> rfl
  · unfold Redis.ZRevRangeByScore
    simp only [Redis.exec]
    split
    · refine ⟨_, rfl, rfl, ?_⟩
      cases withscores <;> cases limit <;> rfl
    · refine ⟨_, rfl, rfl, ?_⟩
      cases withscores <;> cases limit <;> rfl
  · unfold Redis.ZRevRangeByScore
    simp only [Redis.exec]
    split <;> exact ⟨_, rfl, rfl, rfl⟩

theorem appendWeights_eq (weights : List Int) :
    ∀ args : List Arg, appendWeights args weights = args ++ weights.map Arg.int := by
  induction weights with
  | nil => intro args; simp [appendWeights]
  | cons w ws ih => intro args; simp [appendWeights, ih]

/-- The argument list both store operations build. -/
theorem store_args (destination : String) (keys : List String) (weights : List Int)
    (aggregate : String) :
    (if aggregate ≠ "" then
        (if weights.length > 0 then
          appendWeights
            (packArgs [.scalar (.str destination), .scalar (.int keys.length), .strings keys]
              ++ [.str "WEIGHTS"]) weights
        else packArgs [.scalar (.str destination), .scalar (.int keys.length), .strings keys])
          ++ [.str "AGGREGATE", .str aggregate]
      else
        (if weights.length > 0 then
          appendWeights
            (packArgs [.scalar (.str destination), .scalar (.int keys.length), .strings keys]
              ++ [.str "WEIGHTS"]) weights
        else packArgs [.scalar (.str destination), .scalar (.int keys.length), .strings keys]))
      = [Arg.str destination, Arg.int keys.length] ++ keys.map Arg.str
        ++ (if weights ≠ [] then Arg.str "WEIGHTS" :: weights.map Arg.int else [])
        ++ (if aggregate ≠ "" then [.str "AGGREGATE", .str aggregate] else []) := by
  have hw : (weights.length > 0) ↔ weights ≠ [] := by
    cases weights <;> simp
  by_cases h1 : weights ≠ [] <;> by_cases h2 : aggregate ≠ "" <;>
    simp [hw, h1, h2, appendWeights_eq, packArgs]

/-- C10. `ZUnionStore` and `ZInterStore` each make one round trip, `ZUNIONSTORE`
respectively `ZINTERSTORE`, with the same arguments: the destination, the number
of source keys, the source keys in order, then `WEIGHTS` and every weight in
order exactly when the weight list is not empty (however many keys there are),
then `AGGREGATE` and the mode exactly when the mode is not empty. An integer
reply `n` is returned as `(n, nil)`. For `dest`, `["a","b"]`, `[2,3]`, `SUM` the
arguments are `dest 2 a b WEIGHTS 2 3 AGGREGATE SUM`. -/
theorem store_request {σ : Type} (r : Redis σ) (destination : String) (keys : List String)
    (weights : List Int) (aggregate : String) (conn : Conn σ) :
    (∃ ex, (r.ZUnionStore destination keys weights aggregate conn).2.log = conn.log ++ [ex] ∧
      ex.cmd = "ZUNIONSTORE" ∧
      ex.args = [.str destination, .int keys.length] ++ keys.map Arg.str
        ++ (if weights ≠ [] then Arg.str "WEIGHTS" :: weights.map Arg.int else [])
        ++ (if aggregate ≠ "" then [.str "AGGREGATE", .str aggregate] else []) ∧
      ∀ n : Int, ex.reply = .int n → ex.err = none →
        (r.ZUnionStore destination keys weights aggregate conn).1 = (n, none)) ∧
    (∃ ex, (r.ZInterStore destination keys weights aggregate conn).2.log = conn.log ++ [ex] ∧
      ex.cmd = "ZINTERSTORE" ∧
      ex.args = [.str destination, .int keys.length] ++ keys.map Arg.str
        ++ (if weights ≠ [] then Arg.str "WEIGHTS" :: weights.map Arg.int else [])
        ++ (if aggregate ≠ "" then [.str "AGGREGATE", .str aggregate] else []) ∧
      ∀ n : Int, ex.reply = .int n → ex.err = none →
        (r.ZInterStore destination keys weights aggregate conn).1 = (n, none)) ∧
    (∃ ex, (r.ZUnionStore "dest" ["a", "b"] [2, 3] "SUM" conn).2.log = conn.log ++ [ex] ∧
      ex.args = [.str "dest", .int 2, .str "a", .str "b", .str "WEIGHTS", .int 2, .int 3,
        .str "AGGREGATE", .str "SUM"]) := by
  refine ⟨?_, ?_, ?_⟩
  · unfold Redis.ZUnionStore
    simp only [store_args, Redis.exec]
    generalize r.Do conn.state "ZUNIONSTORE" _ = out
    refine ⟨⟨"ZUNIONSTORE", _, out.1.1, out.1.2⟩, ?_, rfl, rfl, ?_⟩
    · split <;> rfl
    · intro n h1 h2
      simp only at h1 h2
      rw [h1, h2]; rfl
  · unfold Redis.ZInterStore
    simp only [store_args, Redis.exec]
    generalize r.Do conn.state "ZINTERSTORE" _ = out
    refine ⟨⟨"ZINTERSTORE", _, out.1.1, out.1.2⟩, ?_, rfl, rfl, ?_⟩
    · split <;> rfl
    · intro n h1 h2
      simp only at h1 h2
      rw [h1, h2]; rfl
  · unfold Redis.ZUnionStore
    simp only [Redis.exec]
    split <;> exact ⟨_, rfl, rfl⟩

/-! ## Rank and removal: the nil reply -/

/-- The shared tail of the integer-valued operations, `redis.Int64` followed by
the test for `ErrNil`, meets the contract. -/
theorem intReply_of_exec {σ : Type} (zero : Int) (r : Redis σ) (conn : Conn σ) (cmd : String)
    (args : List Arg) :
    IntReplyContract zero r conn cmd args
      (match redis.Int64 (r.exec conn cmd args).1.1 (r.exec conn cmd args).1.2 with
        | (_, some .ErrNil) => ((zero, none), (r.exec conn cmd args).2)
        | (res, err) => ((res, err), (r.exec conn cmd args).2)) := by
  unfold IntReplyContract
  simp only [Redis.exec]
  rcases r.Do conn.state cmd args with ⟨⟨reply, err⟩, nxt⟩
  refine ⟨?_, ?_, ?_, ?_, ?_, ?_⟩
  · split <;> rfl
  · split <;> rfl
  · intro h
    simp only [Prod.mk.injEq] at h
    obtain ⟨rfl, rfl⟩ := h
    rfl
  · intro reply1 h
    simp only [Prod.mk.injEq] at h
    obtain ⟨rfl, rfl⟩ := h
    rfl
  · intro n h
    simp only [Prod.mk.injEq] at h
    obtain ⟨rfl, rfl⟩ := h
    rfl
  · intro reply1 e h hne
    simp only [Prod.mk.injEq] at h
    obtain ⟨rfl, rfl⟩ := h
    cases e
    · exact absurd rfl hne
    all_goals rfl

/-- C11. Each of the six operations makes exactly its one request and reads its
result off the executor's answer to it: on the nil sentinel `ZRank` and
`ZRevRank` return `(-1, nil)` and `ZRem`, `ZRemRangeByRank`, `ZRemRangeByScore`
and `ZRemRangeByLex` return `(0, nil)`; on an integer reply `n` each returns
`(n, nil)`, so `(0, nil)` for a removal that matched nothing; and any other
error of the executor is returned unchanged. -/
theorem rank_and_removal_on_nil {σ : Type} (r : Redis σ) (key member min max : String)
    (members : List String) (start stop : Int) (conn : Conn σ) :
    IntReplyContract (-1) r conn "ZRANK" [.str key, .str member] (r.ZRank key member conn) ∧
    IntReplyContract (-1) r conn "ZREVRANK" [.str key, .str member]
      (r.ZRevRank key member conn) ∧
    IntReplyContract 0 r conn "ZREM" (.str key :: members.map Arg.str)
      (r.ZRem key members conn) ∧
    IntReplyContract 0 r conn "ZREMRANGEBYRANK" [.str key, .int start, .int stop]
      (r.ZRemRangeByRank key start stop conn) ∧
    IntReplyContract 0 r conn "ZREMRANGEBYSCORE" [.str key, .str min, .str max]
      (r.ZRemRangeByScore key min max conn) ∧
    IntReplyContract 0 r conn "ZREMRANGEBYLEX" [.str key, .str min, .str max]
      (r.ZRemRangeByLex key min max conn) ∧
    ((r.Do conn.state "ZREMRANGEBYSCORE" [.str key, .str min, .str max]).1 = (.int 0, none) →
      (r.ZRemRangeByScore key min max conn).1 = (0, none)) ∧
    ((r.Do conn.state "ZRANK" [.str key, .str member]).1 = (.nil, none) →
      (r.ZRank key member conn).1 = (-1, none)) := by
  have hrem : packArgs [.scalar (.str key), .strings members]
      = Arg.str key :: members.map Arg.str := by
    simp [packArgs]
  refine ⟨intReply_of_exec (-1) r conn "ZRANK" _,
    intReply_of_exec (-1) r conn "ZREVRANK" _, ?_,
    intReply_of_exec 0 r conn "ZREMRANGEBYRANK" _,
    intReply_of_exec 0 r conn "ZREMRANGEBYSCORE" _,
    intReply_of_exec 0 r conn "ZREMRANGEBYLEX" _, ?_, ?_⟩
  · have h := intReply_of_exec 0 r conn "ZREM" (Arg.str key :: members.map Arg.str)
    unfold Redis.ZRem
    rw [hrem]
    exact h
  · exact (intReply_of_exec 0 r conn "ZREMRANGEBYSCORE" [.str key, .str min, .str max]).2.2.2.2.1 0
  · exact (intReply_of_exec (-1) r conn "ZRANK" [.str key, .str member]).2.2.1

/-- C11 against an executor that answers every request with the nil reply:
`ZRank` returns `(-1, nil)` and `ZRemRangeByScore` returns `(0, nil)`, each
after its one request. -/
theorem zrank_zrem_nil_reply_example :
    (constRedis .nil none).ZRank "k" "absent" ⟨(), []⟩
      = ((-1, none), ⟨(), [⟨"ZRANK", [.str "k", .str "absent"], .nil, none⟩]⟩) ∧
    (constRedis .nil none).ZRemRangeByScore "k" "-inf" "(2" ⟨(), []⟩
      = ((0, none), ⟨(), [⟨"ZREMRANGEBYSCORE", [.str "k", .str "-inf", .str "(2"], .nil, none⟩]⟩) ∧
    (constRedis (.int 0) none).ZRemRangeByScore "k" "-inf" "(2" ⟨(), []⟩
      = ((0, none),
          ⟨(), [⟨"ZREMRANGEBYSCORE", [.str "k", .str "-inf", .str "(2"], .int 0, none⟩]⟩) :=
  ⟨rfl, rfl, rfl⟩

/-! ## Application errors -/

/-- C12 (the code breaks it for `*Error`). By root cause of `e`: on an `Error`
value with code `c`, `a.Equal(e)` is true exactly when `a.ErrNo = c`, whatever
the messages and the wrapping; on any other root cause it is false, and that
includes the `*Error` pointer `NewError` returns, bare or wrapped, even with the
code of `a` itself, since the type switch has no case for the pointer type. -/
theorem Equal_by_root_cause (a : Error) (e : Option ErrorValue) :
    (∀ cause : Error, errors.Cause e = some (.Error cause) →
      (a.Equal e = true ↔ a.ErrNo = cause.ErrNo)) ∧
    ((∀ cause : Error, errors.Cause e ≠ some (.Error cause)) → a.Equal e = false) ∧
    (∀ cause : Error, errors.Cause e = some (.ErrorPtr cause) → a.Equal e = false) ∧
    (∀ m : String, a.Equal (some (NewError a.ErrNo m)) = false) ∧
    (∀ m w : String, a.Equal (errors.Wrap (some (NewError a.ErrNo m)) w) = false) ∧
    (∀ m w : String, a.Equal (some (.Error ⟨a.ErrNo, m⟩)) = true ∧
      a.Equal (errors.Wrap (some (.Error ⟨a.ErrNo, m⟩)) w) = true) := by
  refine ⟨?_, ?_, ?_, ?_, ?_, ?_⟩
  · intro cause h
    simp [Error.Equal, h]
  · intro h
    unfold Error.Equal
    split
    · rename_i cause hc
      exact absurd hc (h cause)
    · rfl
  · intro cause h
    simp [Error.Equal, h]
  · intro m
    rfl
  · intro m w
    rfl
  · intro m w
    simp [Error.Equal, errors.Cause, errors.Wrap, errors.causeLoop]

/-- C15. `Wrap`, `WrapPrint` and `WrapPrintf` return nil for a nil core error.
For a non-nil one, each returns a non-nil error whose root cause is an `Error`
value with the code of `a`, with the message `core.Error()` in the case of
`Wrap`, so `a.Equal` of the wrapped error holds and `b.Equal` of it fails for
every `b` with another code. -/
theorem Wrap_keeps_code {β : Type} (sprintfCore : String → ErrorValue → String)
    (sprintf : String → List β → String) (a : Error) :
    a.Wrap none = none ∧
    (∀ m : String, a.WrapPrint none m = none) ∧
    (∀ (f : String) (msg : List β), a.WrapPrintf sprintfCore sprintf none f msg = none) ∧
    (∀ core : ErrorValue,
      (∃ w, a.Wrap (some core) = some w) ∧
      errors.Cause (a.Wrap (some core)) = some (.Error ⟨a.ErrNo, core.message⟩) ∧
      a.Equal (a.Wrap (some core)) = true ∧
      ∀ b : Error, b.ErrNo ≠ a.ErrNo → b.Equal (a.Wrap (some core)) = false) ∧
    (∀ (core : ErrorValue) (m : String),
      (∃ w, a.WrapPrint (some core) m = some w) ∧
      errors.Cause (a.WrapPrint (some core) m)
        = some (.Error ⟨a.ErrNo, a.ErrMsg ++ core.message⟩) ∧
      (a.WrapPrint (some core) m).map ErrorValue.message
        = some (m ++ ": " ++ (a.ErrMsg ++ core.message)) ∧
      a.Equal (a.WrapPrint (some core) m) = true ∧
      ∀ b : Error, b.ErrNo ≠ a.ErrNo → b.Equal (a.WrapPrint (some core) m) = false) ∧
    (∀ (core : ErrorValue) (f : String) (msg : List β),
      (∃ w, a.WrapPrintf sprintfCore sprintf (some core) f msg = some w) ∧
      errors.Cause (a.WrapPrintf sprintfCore sprintf (some core) f msg)
        = some (.Error ⟨a.ErrNo, sprintfCore a.ErrMsg core⟩) ∧
      (a.WrapPrintf sprintfCore sprintf (some core) f msg).map ErrorValue.message
        = some (sprintf f msg ++ ": " ++ sprintfCore a.ErrMsg core) ∧
      a.Equal (a.WrapPrintf sprintfCore sprintf (some core) f msg) = true ∧
      ∀ b : Error, b.ErrNo ≠ a.ErrNo →
        b.Equal (a.WrapPrintf sprintfCore sprintf (some core) f msg) = false) ∧
    (∀ core : ErrorValue, (a.Wrap (some core)).map ErrorValue.message
      = some (a.ErrMsg ++ ": " ++ core.message)) := by
  refine ⟨rfl, fun _ => rfl, fun _ _ => rfl, ?_, ?_, ?_, fun _ => rfl⟩
  · intro core
    have hc : errors.Cause (a.Wrap (some core)) = some (.Error ⟨a.ErrNo, core.message⟩) := rfl
    refine ⟨⟨_, rfl⟩, hc, ?_, ?_⟩
    · simp [Error.Equal, hc]
    · intro b hb
      simp [Error.Equal, hc, hb]
  · intro core m
    have hc : errors.Cause (a.WrapPrint (some core) m)
        = some (.Error ⟨a.ErrNo, a.ErrMsg ++ core.message⟩) := rfl
    refine ⟨⟨_, rfl⟩, hc, rfl, ?_, ?_⟩
    · simp [Error.Equal, hc]
    · intro b hb
      simp [Error.Equal, hc, hb]
  · intro core f msg
    have hc : errors.Cause (a.WrapPrintf sprintfCore sprintf (some core) f msg)
        = some (.Error ⟨a.ErrNo, sprintfCore a.ErrMsg core⟩) := rfl
    refine ⟨⟨_, rfl⟩, hc, rfl, ?_, ?_⟩
    · simp [Error.Equal, hc]
    · intro b hb
      simp [Error.Equal, hc, hb]

/-! ## The scans on the nil reply -/

/-- C13 (the code breaks it for `ZScan`). Each scan makes one round trip. When
the executor answers it with the nil sentinel, `HScan` returns `(0, no pairs,
nil)`, and `ZScan` returns `(0, no members, ErrNil)`: it has no test for the
sentinel and hands it to the caller as an error. -/
theorem scans_on_nil_reply {σ : Type} (r : Redis σ) (key : String) (cursor : Nat)
    (pattern : String) (count : Int) (conn : Conn σ) :
    (∃ ex, (r.HScan key cursor pattern count conn).2.log = conn.log ++ [ex] ∧
      (ex.err = none → ex.reply = .nil →
        (r.HScan key cursor pattern count conn).1 = .ret (0, [], none))) ∧
    (∃ ex, (r.ZScan key cursor pattern count conn).2.log = conn.log ++ [ex] ∧
      (ex.err = none → ex.reply = .nil →
        (r.ZScan key cursor pattern count conn).1 = (0, [], some .ErrNil))) := by
  refine ⟨?_, ?_⟩
  · unfold Redis.HScan
    simp only [Redis.exec]
    generalize r.Do conn.state "HSCAN" _ = out
    generalize (if count > 0 then _ else _ : List Arg) = args
    rcases out with ⟨⟨reply, err⟩, nxt⟩
    refine ⟨⟨"HSCAN", args, reply, err⟩, ?_, ?_⟩
    · split <;> rfl
    · rintro h1 h2
      simp only at h1 h2
      subst h1 h2
      rfl
  · unfold Redis.ZScan
    simp only [Redis.exec]
    generalize r.Do conn.state "ZSCAN" _ = out
    generalize (if count > 0 then _ else _ : List Arg) = args
    rcases out with ⟨⟨reply, err⟩, nxt⟩
    refine ⟨⟨"ZSCAN", args, reply, err⟩, ?_, ?_⟩
    · split
      · rfl
      · split <;> rfl
    · rintro h1 h2
      simp only at h1 h2
      subst h1 h2
      rfl

/-! ## `HMGet`: the slice bounds -/

theorem flatMap_chunks {α : Type} :
    ∀ (k : Nat) (l : List α), l.length ≤ 32 * k →
      (List.range k).flatMap (fun i => (l.drop (32 * i)).take 32) = l := by
  intro k
  induction k with
  | zero =>
    intro l h
    have : l = [] := List.eq_nil_of_length_eq_zero (by omega)
    simp [this]
  | succ k ih =>
    intro l h
    rw [List.range_succ_eq_map, List.flatMap_cons, List.flatMap_map]
    have hrest : (List.range k).flatMap (fun i => (l.drop (32 * (i + 1))).take 32) = l.drop 32 := by
      have := ih (l.drop 32) (by simp; omega)
      simp only [List.drop_drop] at this
      rw [← this]
      congr 1
      funext i
      congr 2
      omega
    simp only [Function.comp_def, Nat.succ_eq_add_one]
    rw [hrest]
    simp

/-- The loop of `HMGet` on the exact page number never panics. -/
theorem HMGet_loop_returns {σ : Type} (r : Redis σ) (key : String) (fields : List String) :
    ∀ (k i : Nat) (res : List (Option Bytes)) (c : Conn σ), i + k = (fields.length + 31) / 32 →
      ∃ v, (Redis.HMGet.loop r key fields ((fields.length + 31) / 32) k i res c).1 = .ret v := by
  intro k
  induction k with
  | zero => intro i res c _; exact ⟨_, rfl⟩
  | succ k ih =>
    intro i res c hik
    have hsl := goSlice_chunk fields i (by omega)
    rw [Redis.HMGet.loop]
    simp only [hsl]
    split
    · exact ⟨_, rfl⟩
    · exact ih _ _ _ (by omega)

/-- C14. For a field list of length `N` (a Go slice, so `N < 2^53`) the page
number is `⌈N/32⌉`, and in every iteration `i < pageNum` the bounds of
`fields[i*32 : end]`, with `end = N` on the last iteration and `32*(i+1)`
otherwise, satisfy `32*i < end ≤ N`: the slice expression succeeds, the chunk is
not empty, has at most 32 fields and exactly 32 unless it is the last, and holds
the input positions `32*i ..`; the chunks in order make up the whole list; and
`HMGet` never panics, whatever the executor answers. -/
theorem HMGet_slices_in_range (fields : List String) (hlen : fields.length < 2 ^ 53) :
    pageNum fields.length = (fields.length + 31) / 32 ∧
    (∀ i, i < pageNum fields.length →
      i * _CHUNK_SIZE
        < (if i = pageNum fields.length - 1 then fields.length else (i + 1) * _CHUNK_SIZE) ∧
      (if i = pageNum fields.length - 1 then fields.length else (i + 1) * _CHUNK_SIZE)
        ≤ fields.length ∧
      ∃ chunk, goSlice fields (i * _CHUNK_SIZE)
          (if i = pageNum fields.length - 1 then fields.length else (i + 1) * _CHUNK_SIZE)
          = some chunk ∧
        chunk ≠ [] ∧ chunk.length ≤ 32 ∧
        (i ≠ pageNum fields.length - 1 → chunk.length = 32) ∧
        (∀ t, t < chunk.length → chunk[t]? = fields[32 * i + t]?)) ∧
    (List.range (pageNum fields.length)).flatMap (fun i => (fields.drop (32 * i)).take 32)
      = fields ∧
    (∀ (σ : Type) (r : Redis σ) (key : String) (c : Conn σ) (msg : String),
      (r.HMGet key fields c).1 ≠ .panic msg) := by
  have hpn := pageNum_eq fields.length hlen
  rw [hpn]
  refine ⟨rfl, ?_, ?_, ?_⟩
  · intro i hi
    have hsl := goSlice_chunk fields i hi
    have hcl := chunkOf_length fields i
    refine ⟨?_, ?_, chunkOf fields i, hsl, ?_, ?_, ?_, ?_⟩
    · unfold _CHUNK_SIZE; split_ifs <;> omega
    · unfold _CHUNK_SIZE; split_ifs <;> omega
    · intro h
      rw [h] at hcl
      simp at hcl
      omega
    · omega
    · intro hne
      omega
    · intro t ht
      unfold chunkOf at ht ⊢
      rw [List.getElem?_take_of_lt (by simp at ht; exact ht.1), List.getElem?_drop]
  · exact flatMap_chunks _ fields (by omega)
  · intro σ r key c msg h
    obtain ⟨v, hv⟩ := HMGet_loop_returns r key fields ((fields.length + 31) / 32) 0 [] c (by omega)
    rw [Redis.HMGet, hpn, hv] at h
    cases h

/-- C14 on forty fields: two chunks, of 32 and of 8 fields. -/
theorem HMGet_slices_in_range_witness :
    (List.replicate 40 "f").length < 2 ^ 53 ∧
    pageNum (List.replicate 40 "f").length = 2 ∧
    goSlice (List.replicate 40 "f") (0 * _CHUNK_SIZE) ((0 + 1) * _CHUNK_SIZE)
      = some (List.replicate 32 "f") ∧
    goSlice (List.replicate 40 "f") (1 * _CHUNK_SIZE) 40 = some (List.replicate 8 "f") ∧
    (List.range (pageNum (List.replicate 40 "f").length)).flatMap
      (fun i => ((List.replicate 40 "f").drop (32 * i)).take 32) = List.replicate 40 "f" := by
  have h := HMGet_slices_in_range (List.replicate 40 "f") (by simp)
  refine ⟨by simp, by rw [h.1]; rfl, by decide, by decide, h.2.2.1⟩

end GoTiant
